import Mathlib

/-!
# Verification of the skillserver skill catalog (Go sources)

A shallow embedding, in Lean 4, of the path-validation, skill-resolution,
resource, archive and mirror-sync logic of the `mudler/skillserver`
repository, together with theorems settling the frozen claims about it.

Conventions of the embedding:

* Go strings are Lean `String`s; all character-level operations
  (`strings.Split`, `strings.Contains`, `strings.HasPrefix`, ...) are
  re-implemented over `String.toList` so that they are easy to reason about
  and still executable.
* The embedding targets the Linux build of the program:
  `filepath.Separator` is `'/'`, `filepath.ToSlash` is the identity and
  `filepath.IsAbs p` is "`p` starts with `/`".
* Byte slices are `List Nat` (each entry `< 256` where it matters).
* The YAML frontmatter decoder (`ParseFrontmatter`) is an external
  collaborator per the specification ("opaque Parser: text → validated
  metadata or structured error"); every definition that needs it takes a
  `parse : List Nat → Except String (SkillMetadata × String)` parameter and
  the theorems quantify over it.
* Directory trees are the inductive `FS` below; `os.ReadDir` returns
  entries sorted by name, which the well-formedness predicate `FS.wfb`
  (strictly sorted entry names) captures, and `filepath.Walk` visits in
  lexical pre-order, which the walk functions below implement.
-/

/-! ## Character-level string helpers (models of Go `strings` functions) -/

/-- Model of `strings.Contains(s, "..")`: two consecutive dots anywhere. -/
def hasDotDot : List Char → Bool
  | '.' :: '.' :: _ => true
  | _ :: rest => hasDotDot rest
  | [] => false

/-- `strings.Contains(s, "..")` on a Go string. -/
def containsDotDot (s : String) : Bool := hasDotDot s.toList

/-- `strings.HasPrefix(s, p)`. -/
def hasPfx (p s : String) : Bool := p.toList.isPrefixOf s.toList

/-- `strings.HasSuffix(s, sfx)`. -/
def hasSfx (sfx s : String) : Bool := sfx.toList.isSuffixOf s.toList

/-- One step of `strings.Split(s, sep)` for a one-character separator:
splitting a character list on every occurrence of `sep`.  Always returns a
non-empty list of pieces (n separators give n+1 pieces), exactly like Go's
`strings.Split`. -/
def splitChars (sep : Char) : List Char → List (List Char)
  | [] => [[]]
  | c :: rest =>
    match splitChars sep rest with
    | [] => [[]]
    | p :: ps => if c = sep then [] :: p :: ps else (c :: p) :: ps

/-- `strings.Split(s, "/")`. -/
def splitSlash (s : String) : List String :=
  (splitChars '/' s.toList).map (fun l => ⟨l⟩)

/-- The last `/`-separated segment of a string (used to state the claims
about "the identifier's last segment"). -/
def lastSeg (s : String) : String := (splitSlash s).getLastD ""

/-! ## C1: `ValidateResourcePath` (PathGuard) -/

/-- The three fixed resource prefixes of `ValidateResourcePath`. -/
def validPfxList : List String := ["scripts/", "references/", "assets/"]

/-- Embedding of `domain.ValidateResourcePath`.  On Linux
`filepath.ToSlash` is the identity, so the separator-normalization step is
a no-op; `filepath.IsAbs` is the leading-`/` test.  The checks run in the
source's order: allowed prefix first, then the `".."` substring test, then
absoluteness. -/
def ValidateResourcePath (path : String) : Except String Unit :=
  if ¬ (validPfxList.any (fun p => hasPfx p path)) then
    .error "resource path must start with scripts/, references/, or assets/"
  else if containsDotDot path then
    .error "resource path cannot contain '..'"
  else if hasPfx "/" path then
    .error "resource path must be relative"
  else
    .ok ()

/-- The acceptance predicate exactly as the claim words it ("contains no
`..` path segment"): starts with one of the three fixed prefixes, no
`/`-separated segment equals `".."`, and not absolute. -/
def specPathOkSegment (path : String) : Bool :=
  validPfxList.any (fun p => hasPfx p path)
    && (splitSlash path).all (fun seg => seg ≠ "..")
    && ¬ hasPfx "/" path

/-- The acceptance predicate with the claim's "`..` segment" corrected to
the substring test the code performs. -/
def specPathOkSub (path : String) : Bool :=
  validPfxList.any (fun p => hasPfx p path)
    && ¬ containsDotDot path
    && ¬ hasPfx "/" path

/-- **C1, counterexample.**  `"scripts/a..b"` has no `".."` path segment,
starts with `"scripts/"` and is relative, so by the claim
`ValidateResourcePath` should accept it; the code rejects it because it
contains `".."` as a substring. -/
theorem c1_counterexample :
    specPathOkSegment "scripts/a..b" = true ∧
      ValidateResourcePath "scripts/a..b" =
        .error "resource path cannot contain '..'" := by
  constructor
  · decide
  · rfl

/-- **C1 (amended).**  For every path `p`, `ValidateResourcePath p`
succeeds iff `p` starts with one of the three fixed prefixes
`"scripts/"`, `"references/"`, `"assets/"`, does not contain the substring
`".."` anywhere, and is not absolute; on violation it returns an error and
never a corrected path. -/
theorem c1_validate_iff (p : String) :
    ValidateResourcePath p = .ok () ↔ specPathOkSub p = true := by
  unfold ValidateResourcePath specPathOkSub
  by_cases h1 : (validPfxList.any (fun q => hasPfx q p)) = true
  · by_cases h2 : containsDotDot p = true
    · simp [h1, h2]
    · by_cases h3 : hasPfx "/" p = true
      · simp [h1, h2, h3]
      · simp [h1, h2, h3]
  · simp [h1]

/-! ## C7: `GitSyncer.syncAll` -/

/-- Observable events of one `syncAll` pass: a per-mirror sync attempt
(with its outcome) or an invocation of the re-index callback. -/
inductive SyncEv where
  | attempt (url : String) (ok : Bool) : SyncEv
  | reindex : SyncEv
deriving DecidableEq, Repr

/-- The per-mirror loop of `syncAll` (`syncer.go`): each repository in the
snapshot is attempted with `syncRepo`; a failure is written to the logger
as a warning and the loop continues with the next repository. -/
def syncLoop (syncRepo : String → Except String Unit) : List String → List SyncEv
  | [] => []
  | r :: rest => .attempt r (syncRepo r).isOk :: syncLoop syncRepo rest

/-- Embedding of `GitSyncer.syncAll`.  `repos` is the snapshot that
`GetRepos` copies out under the lock; `syncRepo` models the per-mirror
clone-or-pull; `onUpdate` models the re-index callback.  The result is the
event trace plus the error returned to the caller: per-mirror failures are
only logged, while a callback failure is wrapped and returned. -/
def syncAll (repos : List String) (syncRepo : String → Except String Unit)
    (onUpdate : Except String Unit) : List SyncEv × Except String Unit :=
  (syncLoop syncRepo repos ++ [.reindex],
   match onUpdate with
   | .ok _ => .ok ()
   | .error e => .error ("failed to trigger re-indexing: " ++ e))

/-- The URL of an attempt event, if it is one. -/
def syncEvUrl : SyncEv → Option String
  | .attempt u _ => some u
  | .reindex => none

theorem syncLoop_urls (syncRepo : String → Except String Unit) (repos : List String) :
    (syncLoop syncRepo repos).filterMap syncEvUrl = repos := by
  induction repos with
  | nil => rfl
  | cons r rest ih => simp [syncLoop, syncEvUrl, ih]

theorem syncLoop_no_reindex (syncRepo : String → Except String Unit) (repos : List String) :
    (syncLoop syncRepo repos).count SyncEv.reindex = 0 := by
  induction repos with
  | nil => rfl
  | cons r rest ih =>
    simp only [syncLoop, List.count_cons, ih]
    simp [syncEvUrl]

/-- **C7.**  `syncAll` attempts every mirror of the snapshot, in order,
whatever the individual outcomes are (the attempted URLs are exactly the
snapshot for *any* `syncRepo`, so one failure never prevents the rest);
the re-index callback runs exactly once per pass regardless of the
per-mirror outcomes; and the value returned to the caller is independent
of the per-mirror outcomes (a per-mirror failure is only reported on the
log trace, never raised), succeeding iff the callback does. -/
theorem c7_syncAll (repos : List String)
    (syncRepo syncRepo' : String → Except String Unit)
    (onUpdate : Except String Unit) :
    ((syncAll repos syncRepo onUpdate).1.filterMap syncEvUrl = repos)
    ∧ ((syncAll repos syncRepo onUpdate).1.count .reindex = 1)
    ∧ ((syncAll repos syncRepo onUpdate).2 = (syncAll repos syncRepo' onUpdate).2)
    ∧ ((syncAll repos syncRepo onUpdate).2 = .ok () ↔ onUpdate = .ok ()) := by
  refine ⟨?_, ?_, ?_, ?_⟩
  · simp [syncAll, List.filterMap_append, syncLoop_urls, syncEvUrl]
  · simp [syncAll, List.count_append, syncLoop_no_reindex]
  · rfl
  · cases onUpdate with
    | ok u => simp [syncAll]
    | error e => simp [syncAll]

/-! ## The directory-tree model -/

/-- A node of the skills-directory tree: a regular file with its byte
content, or a directory with its named entries.  `os.ReadDir` returns
entries sorted by name; well-formed trees (`FS.wfb`) keep the entry lists
strictly sorted so that list order and lexical order coincide. -/
inductive FS where
  | file (content : List Nat) : FS
  | dir (entries : List (String × FS)) : FS
deriving Repr

/-- Directory lookup of one entry name (a model of resolving one path
component). -/
def getEntry : List (String × FS) → String → Option FS
  | [], _ => none
  | e :: rest, n => if e.1 = n then some e.2 else getEntry rest n

/-- Kernel-computable string comparison (the `<` of `String` is the
lexicographic order on the underlying character lists). -/
def strLtb (a b : String) : Bool := decide (a.data < b.data)

theorem strLtb_iff (a b : String) : strLtb a b = true ↔ a < b := by
  unfold strLtb
  rw [decide_eq_true_iff, String.lt_iff_toList_lt]
  exact Iff.rfl

theorem strLtb_self (n : String) : strLtb n n = false := by
  cases h : strLtb n n with
  | false => rfl
  | true => exact absurd ((strLtb_iff n n).mp h) (lt_irrefl n)

/-- Insert-or-replace an entry, keeping a sorted list sorted (sorted
insertion; replacement happens in place). -/
def setEntry : List (String × FS) → String → FS → List (String × FS)
  | [], n, t => [(n, t)]
  | e :: rest, n, t =>
    if strLtb n e.1 then (n, t) :: e :: rest
    else if e.1 = n then (n, t) :: rest
    else e :: setEntry rest n t

/-- Remove the first entry with the given name (a model of
`os.RemoveAll` on a direct child). -/
def removeEntry : List (String × FS) → String → List (String × FS)
  | [], _ => []
  | e :: rest, n => if e.1 = n then rest else e :: removeEntry rest n

/-- Resolve a path below a node (`some` = `os.Stat` succeeds). -/
def FS.lookup : FS → List String → Option FS
  | t, [] => some t
  | .file _, _ :: _ => none
  | .dir es, n :: rest =>
    match getEntry es n with
    | some t => t.lookup rest
    | none => none

/-- Resolve a non-empty path below a directory given by its entry list
(the skills root is modelled by its entry list; the root itself is not
addressable through this function). -/
def lookupEs (es : List (String × FS)) : List String → Option FS
  | [] => none
  | n :: rest =>
    match getEntry es n with
    | some t => t.lookup rest
    | none => none

/-- Entry names strictly sorted (the order `os.ReadDir` delivers). -/
def keysSorted : List (String × FS) → Bool
  | [] => true
  | [_] => true
  | a :: b :: rest => decide (a.1 < b.1) && keysSorted (b :: rest)

mutual
/-- Well-formed node: every directory's entry list is strictly sorted by
name (hence in particular has no duplicate names). -/
def FS.wfb : FS → Bool
  | .file _ => true
  | .dir es => keysSorted es && wfbList es

def wfbList : List (String × FS) → Bool
  | [] => true
  | e :: rest => e.2.wfb && wfbList rest
end

/-- A string contains no `/` character. -/
def slashFree (s : String) : Bool := decide ('/' ∉ s.data)

/-- A legal on-disk file or directory name: non-empty, no `/`, and not the
special names `.` and `..`. -/
def cleanName (s : String) : Bool :=
  decide (s ≠ "") && slashFree s && decide (s ≠ ".") && decide (s ≠ "..")

mutual
/-- Every name in the tree is a legal on-disk name. -/
def FS.cleanb : FS → Bool
  | .file _ => true
  | .dir es => cleanbList es

def cleanbList : List (String × FS) → Bool
  | [] => true
  | e :: rest => cleanName e.1 && e.2.cleanb && cleanbList rest
end

theorem getEntry_setEntry_self (es : List (String × FS)) (n : String) (t : FS) :
    getEntry (setEntry es n t) n = some t := by
  induction es with
  | nil => simp [setEntry, getEntry]
  | cons e rest ih =>
    by_cases h1 : strLtb n e.1 = true
    · simp [setEntry, h1, getEntry]
    · by_cases h2 : e.1 = n
      · simp [setEntry, h1, h2, getEntry, strLtb_self]
      · simp [setEntry, h1, h2, getEntry, ih]

theorem getEntry_setEntry_ne (es : List (String × FS)) (n m : String) (t : FS)
    (h : ¬ n = m) : getEntry (setEntry es n t) m = getEntry es m := by
  induction es with
  | nil => simp [setEntry, getEntry, h]
  | cons e rest ih =>
    by_cases h1 : strLtb n e.1 = true
    · simp only [setEntry, if_pos h1, getEntry]
      rw [if_neg h]
    · by_cases h2 : e.1 = n
      · simp only [setEntry, if_neg h1, if_pos h2, getEntry]
        rw [if_neg h, if_neg (h2 ▸ h)]
      · simp only [setEntry, if_neg h1, if_neg h2, getEntry, ih]

/-- From a strictly sorted entry list, the head key is below every later
key. -/
theorem keysSorted_head_lt (e : String × FS) (rest : List (String × FS))
    (h : keysSorted (e :: rest) = true) : ∀ x ∈ rest, e.1 < x.1 := by
  induction rest generalizing e with
  | nil => intro x hx; cases hx
  | cons b rest ih =>
    intro x hx
    have hc : (decide (e.1 < b.1) && keysSorted (b :: rest)) = true := h
    rw [Bool.and_eq_true] at hc
    have heb : e.1 < b.1 := of_decide_eq_true hc.1
    rcases List.mem_cons.mp hx with h1 | h1
    · rw [h1]; exact heb
    · exact lt_trans heb (ih b hc.2 x h1)

theorem keysSorted_tail (e : String × FS) (rest : List (String × FS))
    (h : keysSorted (e :: rest) = true) : keysSorted rest = true := by
  cases rest with
  | nil => rfl
  | cons b rest =>
    have hc : (decide (e.1 < b.1) && keysSorted (b :: rest)) = true := h
    rw [Bool.and_eq_true] at hc
    exact hc.2

theorem getEntry_none_of_forall_lt (es : List (String × FS)) (n : String)
    (h : ∀ x ∈ es, n < x.1) : getEntry es n = none := by
  induction es with
  | nil => rfl
  | cons e rest ih =>
    have hne : ¬ e.1 = n := ne_of_gt (h e (List.mem_cons_self e rest))
    simp only [getEntry, if_neg hne]
    exact ih (fun x hx => h x (List.mem_cons_of_mem e hx))

theorem removeEntry_of_absent (es : List (String × FS)) (n : String)
    (h : getEntry es n = none) : removeEntry es n = es := by
  induction es with
  | nil => rfl
  | cons e rest ih =>
    by_cases h1 : e.1 = n
    · simp [getEntry, h1] at h
    · simp only [getEntry, if_neg h1] at h
      simp [removeEntry, h1, ih h]

theorem removeEntry_setEntry (es : List (String × FS)) (n : String) (t : FS)
    (hs : keysSorted es = true) :
    removeEntry (setEntry es n t) n = removeEntry es n := by
  induction es with
  | nil => simp [setEntry, removeEntry]
  | cons e rest ih =>
    by_cases h1 : strLtb n e.1 = true
    · have hlt : n < e.1 := (strLtb_iff n e.1).mp h1
      have hnone : getEntry rest n = none := by
        refine getEntry_none_of_forall_lt rest n (fun x hx => lt_trans hlt ?_)
        exact keysSorted_head_lt e rest hs x hx
      have hne : ¬ e.1 = n := ne_of_gt hlt
      simp [setEntry, h1, removeEntry, hne, removeEntry_of_absent rest n hnone]
    · by_cases h2 : e.1 = n
      · simp [setEntry, h1, h2, removeEntry, strLtb_self]
      · simp [setEntry, h1, h2, removeEntry, ih (keysSorted_tail e rest hs)]

/-! ## Skill metadata and the opaque frontmatter parser -/

/-- The validated YAML frontmatter of a `SKILL.md` (`domain.SkillMetadata`).
The free-form `metadata` map is carried as an association list. -/
structure SkillMetadata where
  name : String
  description : String
  license : String := ""
  compatibility : String := ""
  metadataKV : List (String × String) := []
  allowedTools : String := ""
deriving Repr, DecidableEq

/-- A parsed skill (`domain.Skill`).  `sourcePath` is the skill directory's
path relative to the skills root (`[]` would be the root itself). -/
structure Skill where
  name : String
  id : String
  content : String
  metadata : SkillMetadata
  sourcePath : List String
  readOnly : Bool
deriving Repr, DecidableEq

/-- The type of the frontmatter decoder (`domain.ParseFrontmatter`), an
opaque external collaborator: raw `SKILL.md` bytes to validated metadata
plus remaining body, or a structured error. -/
def FMParser : Type := List Nat → Except String (SkillMetadata × String)

/-! ## `findSkillDirs`: recursive manifest-directory discovery -/

/-- Does `os.Stat(dir/SKILL.md)` succeed for this node?  (Any entry named
`SKILL.md` counts, file or directory, exactly like `os.Stat`.) -/
def hasManifest : FS → Bool
  | .file _ => false
  | .dir es => (getEntry es "SKILL.md").isSome

/-- Embedding of `findSkillDirs` (pkg/domain): for each directory entry, in
`os.ReadDir` order, first record the entry itself if it contains a
`SKILL.md`, then recurse into it; files are skipped.  Returns the paths of
all manifest directories relative to the root, in discovery order. -/
def findList : List (String × FS) → List (List String)
  | [] => []
  | (_, .file _) :: rest => findList rest
  | (nm, .dir subEs) :: rest =>
    (if (getEntry subEs "SKILL.md").isSome then [[nm]] else [])
      ++ (findList subEs).map (fun p => nm :: p) ++ findList rest

mutual
/-- Embedding of `findSkillDirByName` (`filepath.Walk` + `SkipAll`): the
first directory in lexical pre-order, starting at the node itself, whose
base name is `target` and which contains a `SKILL.md`.  `selfName` is the
base name of the walk root; the result is the path relative to the walk
root (`some []` = the root itself matched). -/
def findByName : FS → String → String → Option (List String)
  | .file _, _, _ => none
  | .dir es, selfName, target =>
    if selfName = target && (getEntry es "SKILL.md").isSome then some []
    else findInList es target

/-- The child part of `findByName`: try each entry in order. -/
def findInList : List (String × FS) → String → Option (List String)
  | [], _ => none
  | (nm, t) :: rest, target =>
    match findByName t nm target with
    | some q => some (nm :: q)
    | none => findInList rest target
end

/-- The base name of a skill path relative to the root; the root itself
(`[]`) has the skills directory's own base name. -/
def pathBase (rootBase : String) (p : List String) : String :=
  p.getLastD rootBase

/-! ## `readSkillFromPath`, `ListSkills`, `ReadSkill` -/

/-- Embedding of `readSkillFromPath`: read `SKILL.md` under the directory
(`os.ReadFile` fails unless it is a regular file), run the frontmatter
parser, and require the declared name to equal the directory's base name;
on mismatch a hard error, never a repair. -/
def readSkillFromPath (parse : FMParser) (rootEs : List (String × FS))
    (rootBase : String) (p : List String) (skillName : String)
    (ro : Bool) : Except String Skill :=
  match FS.lookup (.dir rootEs) (p ++ ["SKILL.md"]) with
  | some (.file c) =>
    match parse c with
    | .error e => .error ("failed to parse frontmatter: " ++ e)
    | .ok (meta, body) =>
      if meta.name = pathBase rootBase p then
        .ok { name := skillName, id := skillName, content := body,
              metadata := meta, sourcePath := p, readOnly := ro }
      else
        .error "skill name in frontmatter does not match directory name"
  | _ => .error "failed to read SKILL.md"

/-- The per-hit step of `ListSkills`: relative path `p` (non-empty),
currently enabled mirror names `repos`.  Mirrors the source: a nested hit
whose first segment is not an enabled repo name is skipped; `readOnly`
is `isGitRepoPath` (first segment enabled); the identifier is
`repo/baseName` for read-only nested hits and the base name otherwise;
hits whose manifest cannot be read/validated are skipped. -/
def listSkillsStep (parse : FMParser) (rootEs : List (String × FS))
    (rootBase : String) (repos : List String) (p : List String) : Option Skill :=
  if decide (2 ≤ p.length) && ! repos.contains (p.headD "") then
    none
  else
    (readSkillFromPath parse rootEs rootBase p
      (if repos.contains (p.headD "") && decide (2 ≤ p.length)
       then p.headD "" ++ "/" ++ p.getLastD ""
       else pathBase rootBase p)
      (repos.contains (p.headD ""))).toOption

/-- Embedding of `FileSystemManager.ListSkills`. -/
def ListSkills (parse : FMParser) (rootEs : List (String × FS))
    (rootBase : String) (repos : List String) : List Skill :=
  (findList rootEs).filterMap (listSkillsStep parse rootEs rootBase repos)

/-- `filepath.Clean` on a relative path given as `/`-separated segments:
drop empty and `.` segments and resolve `..` against the accumulator
(leading `..`s, which would escape the root, are kept, as `Clean` keeps
them). -/
def cleanPathGo : List String → List String → List String
  | [], acc => acc.reverse
  | s :: rest, acc =>
    if s = "" || s = "." then cleanPathGo rest acc
    else if s = ".." then
      match acc with
      | [] => cleanPathGo rest [".."]
      | a :: acctl => if a = ".." then cleanPathGo rest (".." :: acc)
                      else cleanPathGo rest acctl
    else cleanPathGo rest (s :: acc)

/-- `filepath.Join(root, p)` below the root, as cleaned segments. -/
def cleanPath (parts : List String) : List String := cleanPathGo parts []

/-- `filepath.Join(root, repoName)` with `os.Stat`: the node the repo
branch of `ReadSkill` walks, plus its base name (`filepath.Base`).  `""`
and `"."` clean to the root itself; `".."` leaves the modelled root. -/
def resolveRepoNode (rootEs : List (String × FS)) (rootBase repoName : String) :
    Option (FS × String) :=
  if repoName = "" ∨ repoName = "." then some (.dir rootEs, rootBase)
  else if repoName = ".." then none
  else (getEntry rootEs repoName).map (fun t => (t, repoName))

/-- The root-relative path prefix contributed by the repo segment. -/
def repoPfx (repoName : String) : List String :=
  if repoName = "" ∨ repoName = "." then [] else [repoName]

/-- Embedding of `FileSystemManager.ReadSkill`.  A name that splits into
exactly two `/`-segments is treated as `repoName/skillDirName` and searched
recursively under `root/repoName`; every other name (no `/` at all, or
three or more segments) falls through to the local branch, which joins the
name onto the root (with Go path cleaning) and requires `SKILL.md` right
there.  `rootBase` is the base name of the skills directory itself, which
`filepath.Base` yields when the join resolves to the root. -/
def ReadSkill (parse : FMParser) (rootEs : List (String × FS))
    (rootBase : String) (name : String) : Except String Skill :=
  let parts := splitSlash name
  if parts.length = 2 then
    match resolveRepoNode rootEs rootBase (parts.headD "") with
    | none => .error ("skill not found: " ++ name)
    | some (node, selfName) =>
      match findByName node selfName (parts.getLastD "") with
      | none => .error ("skill not found: " ++ name)
      | some q =>
        readSkillFromPath parse rootEs rootBase
          (repoPfx (parts.headD "") ++ q) name true
  else
    let segs := cleanPath parts
    match FS.lookup (.dir rootEs) (segs ++ ["SKILL.md"]) with
    | some _ => readSkillFromPath parse rootEs rootBase segs name false
    | none => .error ("skill not found: " ++ name)


/-! ## Lemmas about the string helpers -/

theorem splitChars_ne_nil (sep : Char) (l : List Char) : splitChars sep l ≠ [] := by
  cases l with
  | nil => simp [splitChars]
  | cons c rest =>
    simp only [splitChars]
    cases h : splitChars sep rest with
    | nil => simp
    | cons p ps =>
      by_cases hc : c = sep <;> simp [hc]

theorem splitChars_no_sep (sep : Char) (l : List Char) (h : sep ∉ l) :
    splitChars sep l = [l] := by
  induction l with
  | nil => rfl
  | cons c rest ih =>
    have hc : ¬ c = sep := fun hh => h (hh ▸ List.mem_cons_self c rest)
    have hr : sep ∉ rest := fun hh => h (List.mem_cons_of_mem c hh)
    simp [splitChars, ih hr, hc]

theorem splitChars_append_sep (sep : Char) (xs ys : List Char) (h : sep ∉ xs) :
    splitChars sep (xs ++ sep :: ys) = xs :: splitChars sep ys := by
  induction xs with
  | nil =>
    simp only [List.nil_append, splitChars]
    cases hy : splitChars sep ys with
    | nil => exact absurd hy (splitChars_ne_nil sep ys)
    | cons p ps => simp
  | cons c xs ih =>
    have hc : ¬ c = sep := fun hh => h (hh ▸ List.mem_cons_self c xs)
    have hx : sep ∉ xs := fun hh => h (List.mem_cons_of_mem c hh)
    simp only [List.cons_append, splitChars, List.append_eq]
    rw [ih hx]
    simp [hc]

theorem slashFree_not_mem (s : String) (h : slashFree s = true) : '/' ∉ s.data :=
  of_decide_eq_true h

theorem splitSlash_single (s : String) (h : slashFree s = true) :
    splitSlash s = [s] := by
  unfold splitSlash
  rw [show s.toList = s.data from rfl,
    splitChars_no_sep '/' s.data (slashFree_not_mem s h)]
  rfl

theorem data_pair (a b : String) : (a ++ "/" ++ b).data = a.data ++ '/' :: b.data := by
  rw [String.data_append, String.data_append, List.append_assoc]
  rfl

theorem splitSlash_pair (a b : String) (ha : slashFree a = true)
    (hb : slashFree b = true) : splitSlash (a ++ "/" ++ b) = [a, b] := by
  unfold splitSlash
  rw [show (a ++ "/" ++ b).toList = (a ++ "/" ++ b).data from rfl, data_pair,
    splitChars_append_sep '/' a.data b.data (slashFree_not_mem a ha),
    splitChars_no_sep '/' b.data (slashFree_not_mem b hb)]
  rfl

theorem cleanName_slashFree (s : String) (h : cleanName s = true) :
    slashFree s = true := by
  unfold cleanName at h
  rw [Bool.and_eq_true, Bool.and_eq_true, Bool.and_eq_true] at h
  exact h.1.1.2

theorem cleanName_ne_empty (s : String) (h : cleanName s = true) : s ≠ "" := by
  unfold cleanName at h
  rw [Bool.and_eq_true, Bool.and_eq_true, Bool.and_eq_true] at h
  exact of_decide_eq_true h.1.1.1

theorem cleanName_ne_dot (s : String) (h : cleanName s = true) :
    s ≠ "." ∧ s ≠ ".." := by
  unfold cleanName at h
  rw [Bool.and_eq_true, Bool.and_eq_true, Bool.and_eq_true] at h
  exact ⟨of_decide_eq_true h.1.2, of_decide_eq_true h.2⟩

/-- On a pair `a ++ "/" ++ b` of slash-free segments, `lastSeg` is `b`. -/
theorem lastSeg_pair (a b : String) (ha : slashFree a = true)
    (hb : slashFree b = true) : lastSeg (a ++ "/" ++ b) = b := by
  simp [lastSeg, splitSlash_pair a b ha hb]

theorem lastSeg_single (s : String) (h : slashFree s = true) : lastSeg s = s := by
  simp [lastSeg, splitSlash_single s h]

/-- A string with a `/` in it is never equal to a slash-free one. -/
theorem pair_ne_slashFree (a b c : String) (hc : slashFree c = true) :
    a ++ "/" ++ b ≠ c := by
  intro h
  have hmem : '/' ∈ (a ++ "/" ++ b).data := by
    rw [data_pair]
    exact List.mem_append_right _ (List.mem_cons_self _ _)
  rw [h] at hmem
  exact slashFree_not_mem c hc hmem

/-! ## Characterizing `findSkillDirs` -/

/-- "Path `p` names a directory under the root that directly contains a
`SKILL.md` entry" — the claims' notion of a manifest directory. -/
def isManifestDirAt (es : List (String × FS)) (p : List String) : Prop :=
  ∃ sub, lookupEs es p = some (.dir sub) ∧ (getEntry sub "SKILL.md").isSome = true


/-! ## Characterizing `findSkillDirs` -/

theorem findList_head (es : List (String × FS)) (p : List String)
    (h : p ∈ findList es) : ∃ nm tl, p = nm :: tl ∧ nm ∈ es.map Prod.fst := by
  induction es using findList.induct with
  | case1 => simp [findList] at h
  | case2 nm f rest ihs =>
    simp only [findList] at h
    rcases ihs h with ⟨n, tl, rfl, hmem⟩
    exact ⟨n, tl, rfl, by simp [hmem]⟩
  | case3 nm subEs rest ihsub ihs =>
    simp only [findList, List.mem_append] at h
    rcases h with (h | h) | h
    · refine ⟨nm, [], ?_, by simp⟩
      by_cases hm : (getEntry subEs "SKILL.md").isSome
      · simp [hm] at h; simp [h]
      · simp [hm] at h
    · rcases List.mem_map.mp h with ⟨q, _, rfl⟩
      exact ⟨nm, q, rfl, by simp⟩
    · rcases ihs h with ⟨n, tl, rfl, hmem⟩
      exact ⟨n, tl, rfl, by simp [hmem]⟩

theorem wfb_dir_tail (e : String × FS) (rest : List (String × FS))
    (h : FS.wfb (.dir (e :: rest)) = true) : FS.wfb (.dir rest) = true := by
  unfold FS.wfb at h ⊢
  rw [Bool.and_eq_true] at h
  rw [Bool.and_eq_true]
  refine ⟨keysSorted_tail e rest h.1, ?_⟩
  have hl := h.2
  unfold wfbList at hl
  rw [Bool.and_eq_true] at hl
  exact hl.2

theorem wfb_dir_head (e : String × FS) (rest : List (String × FS))
    (h : FS.wfb (.dir (e :: rest)) = true) : FS.wfb e.2 = true := by
  unfold FS.wfb at h
  rw [Bool.and_eq_true] at h
  have hl := h.2
  unfold wfbList at hl
  rw [Bool.and_eq_true] at hl
  exact hl.1

theorem wfb_head_not_mem (e : String × FS) (rest : List (String × FS))
    (h : FS.wfb (.dir (e :: rest)) = true) : e.1 ∉ rest.map Prod.fst := by
  intro hmem
  unfold FS.wfb at h
  rw [Bool.and_eq_true] at h
  rcases List.mem_map.mp hmem with ⟨x, hx, hx1⟩
  have hlt := keysSorted_head_lt e rest h.1 x hx
  rw [hx1] at hlt
  exact lt_irrefl _ hlt

theorem lookupEs_cons_ne (e : String × FS) (rest : List (String × FS))
    (h : String) (tl : List String) (hne : ¬ e.1 = h) :
    lookupEs (e :: rest) (h :: tl) = lookupEs rest (h :: tl) := by
  simp [lookupEs, getEntry, hne]

theorem not_mem_findList_of_head_absent (es : List (String × FS))
    (h : String) (tl : List String) (habs : h ∉ es.map Prod.fst) :
    h :: tl ∉ findList es := by
  intro hmem
  rcases findList_head es (h :: tl) hmem with ⟨n, tl', heq, hn⟩
  cases heq
  exact habs hn

/-- `findSkillDirs` finds exactly the manifest directories: for a
well-formed tree, `p` is in the walk's output iff `p` names a directory
under the root that directly contains a `SKILL.md` entry. -/
theorem findList_iff (es : List (String × FS)) (p : List String)
    (hwf : FS.wfb (.dir es) = true) :
    p ∈ findList es ↔ isManifestDirAt es p := by
  induction es using findList.induct generalizing p with
  | case1 =>
    simp only [findList, List.not_mem_nil, false_iff]
    rintro ⟨sub, hsub, _⟩
    cases p with
    | nil => simp [lookupEs] at hsub
    | cons h tl => simp [lookupEs, getEntry] at hsub
  | case2 nm f rest ihs =>
    have hwf' := wfb_dir_tail _ _ hwf
    simp only [findList]
    cases p with
    | nil =>
      constructor
      · intro h
        rcases findList_head rest [] h with ⟨n, tl, hcontra, _⟩
        cases hcontra
      · rintro ⟨sub, hsub, _⟩
        simp [lookupEs] at hsub
    | cons h tl =>
      by_cases hh : nm = h
      · subst hh
        constructor
        · intro hmem
          exact absurd hmem
            (not_mem_findList_of_head_absent rest nm tl (wfb_head_not_mem _ _ hwf))
        · rintro ⟨sub, hsub, _⟩
          simp only [lookupEs, getEntry, if_pos rfl] at hsub
          cases tl with
          | nil => simp [FS.lookup] at hsub
          | cons a b => simp [FS.lookup] at hsub
      · rw [ihs (h :: tl) hwf']
        unfold isManifestDirAt
        rw [lookupEs_cons_ne (nm, FS.file f) rest h tl hh]
  | case3 nm subEs rest ihsub ihs =>
    have hwf' := wfb_dir_tail _ _ hwf
    have hwfsub : FS.wfb (.dir subEs) = true := wfb_dir_head _ _ hwf
    simp only [findList, List.mem_append]
    cases p with
    | nil =>
      constructor
      · intro h
        rcases h with (h | h) | h
        · by_cases hm : (getEntry subEs "SKILL.md").isSome <;> simp [hm] at h
        · rcases List.mem_map.mp h with ⟨q, _, hcontra⟩
          cases hcontra
        · rcases findList_head rest [] h with ⟨n, tl, hcontra, _⟩
          cases hcontra
      · rintro ⟨sub, hsub, _⟩
        simp [lookupEs] at hsub
    | cons h tl =>
      by_cases hh : nm = h
      · subst hh
        have hlook : lookupEs ((nm, FS.dir subEs) :: rest) (nm :: tl)
            = FS.lookup (.dir subEs) tl := by
          simp [lookupEs, getEntry]
        constructor
        · intro hmem
          rcases hmem with (h1 | h1) | h1
          · by_cases hm : (getEntry subEs "SKILL.md").isSome
            · simp only [hm, if_pos, List.mem_singleton] at h1
              cases h1
              exact ⟨subEs, by simp [hlook, FS.lookup], hm⟩
            · simp [hm] at h1
          · rcases List.mem_map.mp h1 with ⟨q, hq, heq⟩
            have htl : tl = q := by cases heq; rfl
            subst htl
            rcases (ihsub tl hwfsub).mp hq with ⟨sub, hsub, hm⟩
            refine ⟨sub, ?_, hm⟩
            rw [hlook]
            cases tl with
            | nil => simp [lookupEs] at hsub
            | cons a b => simpa [FS.lookup, lookupEs] using hsub
          · exact absurd h1
              (not_mem_findList_of_head_absent rest nm tl (wfb_head_not_mem _ _ hwf))
        · rintro ⟨sub, hsub, hm⟩
          rw [hlook] at hsub
          cases tl with
          | nil =>
            left; left
            simp only [FS.lookup] at hsub
            cases hsub
            simp [hm]
          | cons a b =>
            left; right
            refine List.mem_map.mpr ⟨a :: b, ?_, rfl⟩
            refine (ihsub (a :: b) hwfsub).mpr ⟨sub, ?_, hm⟩
            simpa [FS.lookup, lookupEs] using hsub
      · constructor
        · intro hmem
          rcases hmem with (h1 | h1) | h1
          · by_cases hm : (getEntry subEs "SKILL.md").isSome
            · simp only [hm, if_pos, List.mem_singleton] at h1
              cases h1
              exact absurd rfl hh
            · simp [hm] at h1
          · rcases List.mem_map.mp h1 with ⟨q, _, heq⟩
            have : nm = h := by cases heq; rfl
            exact absurd this hh
          · rcases (ihs (h :: tl) hwf').mp h1 with ⟨sub, hsub, hm⟩
            exact ⟨sub, by rwa [lookupEs_cons_ne (nm, FS.dir subEs) rest h tl hh], hm⟩
        · rintro ⟨sub, hsub, hm⟩
          right
          rw [lookupEs_cons_ne (nm, FS.dir subEs) rest h tl hh] at hsub
          exact (ihs (h :: tl) hwf').mpr ⟨sub, hsub, hm⟩

/-! ## Valid trees: every manifest parses and matches its directory -/

/-- Does the byte content parse to a frontmatter whose name is `nm`? -/
def parseNameOkb (parse : FMParser) (nm : String) (c : List Nat) : Bool :=
  match parse c with
  | .ok (m, _) => decide (m.name = nm)
  | .error _ => false

/-- If present, the `SKILL.md` entry is a regular file whose frontmatter
parses to the containing directory's base name `nm`. -/
def manifestOkb (parse : FMParser) (nm : String) : Option FS → Bool
  | some (.file c) => parseNameOkb parse nm c
  | some (.dir _) => false
  | none => true

mutual
/-- `goodFS parse nm t`: every `SKILL.md` in the subtree `t` (whose own
base name is `nm`) is a regular file whose frontmatter parses and declares
exactly the containing directory's base name.  This is the well-formedness
the specification assumes of a skill library on disk. -/
def goodFS (parse : FMParser) : String → FS → Bool
  | _, .file _ => true
  | nm, .dir es => manifestOkb parse nm (getEntry es "SKILL.md") && goodList parse es

def goodList (parse : FMParser) : List (String × FS) → Bool
  | [] => true
  | (nm, t) :: rest => goodFS parse nm t && goodList parse rest
end

theorem goodList_getEntry (parse : FMParser) (es : List (String × FS))
    (nm : String) (t : FS) (hg : goodList parse es = true)
    (h : getEntry es nm = some t) : goodFS parse nm t = true := by
  induction es with
  | nil => simp [getEntry] at h
  | cons e rest ih =>
    unfold goodList at hg
    rw [Bool.and_eq_true] at hg
    by_cases he : e.1 = nm
    · simp only [getEntry, if_pos he] at h
      cases h
      have := hg.1
      rwa [show e = (e.1, e.2) from rfl, he] at this
    · simp only [getEntry, if_neg he] at h
      exact ih hg.2 h

theorem goodFS_dir_list (parse : FMParser) (nm : String)
    (es : List (String × FS)) (h : goodFS parse nm (.dir es) = true) :
    goodList parse es = true := by
  unfold goodFS at h
  rw [Bool.and_eq_true] at h
  exact h.2

/-- Along any path from a good entry list, the node reached is good for
the last path component. -/
theorem goodList_lookupEs (parse : FMParser) (es : List (String × FS))
    (p : List String) (t : FS) (hg : goodList parse es = true)
    (hne : p ≠ []) (h : lookupEs es p = some t) :
    goodFS parse (p.getLastD "") t = true := by
  induction p generalizing es with
  | nil => exact absurd rfl hne
  | cons a tl ih =>
    simp only [lookupEs] at h
    cases hget : getEntry es a with
    | none => rw [hget] at h; cases h
    | some u =>
      rw [hget] at h
      have hu : goodFS parse a u = true := goodList_getEntry parse es a u hg hget
      cases tl with
      | nil =>
        simp only [FS.lookup] at h
        cases h
        simpa [List.getLastD] using hu
      | cons b tl' =>
        cases u with
        | file c => simp [FS.lookup] at h
        | dir sub =>
          have hsub : goodList parse sub = true := goodFS_dir_list parse a sub hu
          have hlook : lookupEs sub (b :: tl') = some t := by
            simpa [FS.lookup, lookupEs] using h
          have := ih sub hsub (by simp) hlook
          simpa [List.getLastD] using this

/-- If a directory is good and has a `SKILL.md` entry, that entry is a
file whose frontmatter parses to the directory's own base name. -/
theorem goodFS_manifest (parse : FMParser) (nm : String)
    (es : List (String × FS)) (x : FS)
    (hg : goodFS parse nm (.dir es) = true)
    (h : getEntry es "SKILL.md" = some x) :
    ∃ c meta body, x = .file c ∧ parse c = .ok (meta, body) ∧ meta.name = nm := by
  unfold goodFS at hg
  rw [Bool.and_eq_true] at hg
  have hm := hg.1
  rw [h] at hm
  cases x with
  | dir sub => simp [manifestOkb] at hm
  | file c =>
    rw [show manifestOkb parse nm (some (.file c)) = parseNameOkb parse nm c from rfl] at hm
    unfold parseNameOkb at hm
    cases hp : parse c with
    | error e => rw [hp] at hm; simp at hm
    | ok mb =>
      rw [hp] at hm
      rcases mb with ⟨meta, body⟩
      simp only [decide_eq_true_eq] at hm
      exact ⟨c, meta, body, rfl, hp, hm⟩

/-! ## Properties of `readSkillFromPath` -/

/-- On success, `readSkillFromPath` returns a skill whose metadata name
equals the resolved directory's base name, with the requested identifier,
source path and read-only flag. -/
theorem readSkillFromPath_ok (parse : FMParser) (rootEs : List (String × FS))
    (rootBase : String) (p : List String) (nm : String) (ro : Bool) (s : Skill)
    (h : readSkillFromPath parse rootEs rootBase p nm ro = .ok s) :
    s.metadata.name = pathBase rootBase p ∧ s.id = nm ∧ s.name = nm ∧
      s.sourcePath = p ∧ s.readOnly = ro := by
  unfold readSkillFromPath at h
  cases hl : FS.lookup (.dir rootEs) (p ++ ["SKILL.md"]) with
  | none => rw [hl] at h; simp only at h; cases h
  | some x =>
    rw [hl] at h
    cases x with
    | dir sub => simp only at h; cases h
    | file c =>
      simp only at h
      cases hp : parse c with
      | error e => rw [hp] at h; simp only at h; cases h
      | ok mb =>
        rw [hp] at h
        rcases mb with ⟨meta, body⟩
        simp only at h
        by_cases hn : meta.name = pathBase rootBase p
        · simp only [if_pos hn] at h
          cases h
          exact ⟨hn, rfl, rfl, rfl, rfl⟩
        · simp only [if_neg hn] at h
          cases h

/-- The name-mismatch hard error: if the manifest under `p` parses to a
name different from the directory's base name, `readSkillFromPath` fails
(the mismatch is never repaired). -/
theorem readSkillFromPath_mismatch (parse : FMParser)
    (rootEs : List (String × FS)) (rootBase : String) (p : List String)
    (nm : String) (ro : Bool) (c : List Nat) (meta : SkillMetadata) (body : String)
    (hl : FS.lookup (.dir rootEs) (p ++ ["SKILL.md"]) = some (.file c))
    (hp : parse c = .ok (meta, body)) (hne : meta.name ≠ pathBase rootBase p) :
    readSkillFromPath parse rootEs rootBase p nm ro =
      .error "skill name in frontmatter does not match directory name" := by
  unfold readSkillFromPath
  rw [hl]
  simp only
  rw [hp]
  simp only
  rw [if_neg hne]

/-- Turning a `lookupEs` fact about a directory into the `FS.lookup` of a
file directly inside it. -/
theorem lookup_append_entry (es : List (String × FS)) (p : List String)
    (sub : List (String × FS)) (x : FS)
    (hl : lookupEs es p = some (.dir sub)) (hx : getEntry sub "SKILL.md" = some x) :
    FS.lookup (.dir es) (p ++ ["SKILL.md"]) = some x := by
  induction p generalizing es with
  | nil => simp [lookupEs] at hl
  | cons a tl ih =>
    simp only [lookupEs] at hl
    cases hget : getEntry es a with
    | none => rw [hget] at hl; cases hl
    | some u =>
      rw [hget] at hl
      simp only [List.cons_append, FS.lookup, hget]
      cases tl with
      | nil =>
        simp only [FS.lookup] at hl
        cases hl
        simp [FS.lookup, hx]
      | cons b tl' =>
        cases u with
        | file cc => simp [FS.lookup] at hl
        | dir usub =>
          have hlook : lookupEs usub (b :: tl') = some (.dir sub) := by
            simpa [FS.lookup, lookupEs] using hl
          have hres := ih usub hlook
          simpa [FS.lookup, lookupEs] using hres

/-- For a non-empty path into a good tree whose target has a manifest,
`readSkillFromPath` succeeds (with the skill's body and metadata taken
from the parse). -/
theorem readSkillFromPath_succeeds (parse : FMParser)
    (rootEs : List (String × FS)) (rootBase : String) (p : List String)
    (nm : String) (ro : Bool) (sub : List (String × FS))
    (hg : goodList parse rootEs = true) (hne : p ≠ [])
    (hl : lookupEs rootEs p = some (.dir sub))
    (hm : (getEntry sub "SKILL.md").isSome = true) :
    ∃ s, readSkillFromPath parse rootEs rootBase p nm ro = .ok s := by
  have hgood : goodFS parse (p.getLastD "") (.dir sub) = true :=
    goodList_lookupEs parse rootEs p (.dir sub) hg hne hl
  rcases Option.isSome_iff_exists.mp hm with ⟨x, hx⟩
  rcases goodFS_manifest parse _ sub x hgood hx with ⟨c, meta, body, rfl, hp, hname⟩
  have hlfull : FS.lookup (.dir rootEs) (p ++ ["SKILL.md"]) = some (.file c) :=
    lookup_append_entry rootEs p sub (.file c) hl hx
  have hbase : meta.name = pathBase rootBase p := by
    rw [hname]
    unfold pathBase
    cases p with
    | nil => exact absurd rfl hne
    | cons a tl => simp [List.getLastD]
  refine ⟨{ name := nm, id := nm, content := body, metadata := meta,
            sourcePath := p, readOnly := ro }, ?_⟩
  unfold readSkillFromPath
  rw [hlfull]
  simp only
  rw [hp]
  simp only
  rw [if_pos hbase]

/-! ## C2: `ListSkills` discovery, classification and exclusion -/

theorem except_toOption_some {ε α : Type} (e : Except ε α) (a : α)
    (h : e.toOption = some a) : e = .ok a := by
  cases e with
  | ok b => cases h; rfl
  | error _ => cases h

/-- Unfolding a successful `listSkillsStep`: the hit was not skipped, and
the skill was read with the step's identifier and read-only flag. -/
theorem listSkillsStep_some (parse : FMParser) (rootEs : List (String × FS))
    (rootBase : String) (repos : List String) (p : List String) (s : Skill)
    (h : listSkillsStep parse rootEs rootBase repos p = some s) :
    ¬ (2 ≤ p.length ∧ repos.contains (p.headD "") = false) ∧
      readSkillFromPath parse rootEs rootBase p
        (if repos.contains (p.headD "") && decide (2 ≤ p.length)
         then p.headD "" ++ "/" ++ p.getLastD ""
         else pathBase rootBase p)
        (repos.contains (p.headD "")) = .ok s := by
  unfold listSkillsStep at h
  by_cases hc : (decide (2 ≤ p.length) && !(repos.contains (p.headD ""))) = true
  · rw [if_pos hc] at h
    cases h
  · rw [if_neg hc] at h
    constructor
    · rintro ⟨hlen, hcon⟩
      exact hc (by rw [hcon]; simp [hlen])
    · exact except_toOption_some _ _ h

/-- **C2.**  For every well-formed tree with valid manifests and every
enabled-mirror-name list: (1) the walk finds exactly the directories with
a manifest anywhere under the root; (2) every listed skill is such a hit
and is classified read-only (mirrored) iff the first segment of its
root-relative path is an enabled mirror name; (3) a hit contributes a
skill iff it is top-level or its first segment is enabled — so exactly the
nested hits under a disabled/unknown first segment are excluded (and, the
walk being pure, their files are untouched on disk). -/
theorem c2_listSkills (parse : FMParser) (rootEs : List (String × FS))
    (rootBase : String) (repos : List String)
    (hwf : FS.wfb (.dir rootEs) = true) (hg : goodList parse rootEs = true) :
    (∀ p, p ∈ findList rootEs ↔ isManifestDirAt rootEs p)
    ∧ (∀ s ∈ ListSkills parse rootEs rootBase repos,
        s.sourcePath ∈ findList rootEs ∧
          s.readOnly = repos.contains (s.sourcePath.headD ""))
    ∧ (∀ p ∈ findList rootEs,
        (∃ s ∈ ListSkills parse rootEs rootBase repos, s.sourcePath = p) ↔
          (p.length < 2 ∨ repos.contains (p.headD "") = true)) := by
  refine ⟨fun p => findList_iff rootEs p hwf, ?_, ?_⟩
  · intro s hs
    rcases List.mem_filterMap.mp hs with ⟨p, hp, hstep⟩
    rcases listSkillsStep_some parse rootEs rootBase repos p s hstep with ⟨_, hread⟩
    rcases readSkillFromPath_ok parse rootEs rootBase p _ _ s hread with
      ⟨_, _, _, hpath, hro⟩
    rw [hpath, hro]
    exact ⟨hp, rfl⟩
  · intro p hp
    constructor
    · rintro ⟨s, hs, hpath⟩
      rcases List.mem_filterMap.mp hs with ⟨q, hq, hstep⟩
      rcases listSkillsStep_some parse rootEs rootBase repos q s hstep with ⟨hnot, hread⟩
      rcases readSkillFromPath_ok parse rootEs rootBase q _ _ s hread with
        ⟨_, _, _, hqpath, _⟩
      rw [hqpath] at hpath
      rw [← hpath]
      by_cases hlen : 2 ≤ q.length
      · right
        by_cases hcon : repos.contains (q.headD "") = true
        · exact hcon
        · exact absurd ⟨hlen, by simpa using hcon⟩ hnot
      · left; omega
    · intro hkeep
      rcases (findList_iff rootEs p hwf).mp hp with ⟨sub, hl, hm⟩
      have hne : p ≠ [] := by
        rcases findList_head rootEs p hp with ⟨nm, tl, rfl, _⟩
        simp
      rcases readSkillFromPath_succeeds parse rootEs rootBase p
          (if repos.contains (p.headD "") && decide (2 ≤ p.length)
           then p.headD "" ++ "/" ++ p.getLastD ""
           else pathBase rootBase p)
          (repos.contains (p.headD "")) sub hg hne hl hm with ⟨s, hok⟩
      have hstep : listSkillsStep parse rootEs rootBase repos p = some s := by
        unfold listSkillsStep
        have hcond : ¬ (decide (2 ≤ p.length) && !(repos.contains (p.headD ""))) = true := by
          rcases hkeep with hlen | hcon
          · simp [Nat.not_le.mpr hlen]
          · rw [hcon]; simp
        rw [if_neg hcond, hok]
        rfl
      refine ⟨s, List.mem_filterMap.mpr ⟨p, hp, hstep⟩, ?_⟩
      exact (readSkillFromPath_ok parse rootEs rootBase p _ _ s hok).2.2.2.1

/-- A tiny concrete frontmatter decoder for the witnesses: byte `[1]` is a
manifest named `demo`, byte `[2]` one named `tool`, anything else fails. -/
def parseW : FMParser := fun c =>
  if c = [1] then .ok ({ name := "demo", description := "d" }, "demo body")
  else if c = [2] then .ok ({ name := "tool", description := "t" }, "tool body")
  else if c = [3] then .ok ({ name := "c", description := "c" }, "c body")
  else .error "bad frontmatter"

/-- A concrete skills root: a local skill `demo` and a mirror working
directory `repo` containing the skill `tool`. -/
def rootW : List (String × FS) :=
  [("demo", .dir [("SKILL.md", .file [1])]),
   ("repo", .dir [("tool", .dir [("SKILL.md", .file [2])])])]

theorem rootW_wfb : FS.wfb (.dir rootW) = true := by
  simp [rootW, FS.wfb, wfbList, keysSorted]
  decide

theorem rootW_good : goodList parseW rootW = true := by
  simp [rootW, goodList, goodFS, manifestOkb, parseNameOkb, parseW, getEntry]

/-- Witness for C2 at the concrete library `rootW` with mirror `repo`
enabled. -/
theorem c2_listSkills_witness :
    (∀ p, p ∈ findList rootW ↔ isManifestDirAt rootW p)
    ∧ (∀ s ∈ ListSkills parseW rootW "skills" ["repo"],
        s.sourcePath ∈ findList rootW ∧
          s.readOnly = ["repo"].contains (s.sourcePath.headD ""))
    ∧ (∀ p ∈ findList rootW,
        (∃ s ∈ ListSkills parseW rootW "skills" ["repo"], s.sourcePath = p) ↔
          (p.length < 2 ∨ ["repo"].contains (p.headD "") = true)) :=
  c2_listSkills parseW rootW "skills" ["repo"] rootW_wfb rootW_good

/-! ## Soundness and completeness of `findSkillDirByName` -/

theorem lookup_dir_eq_lookupEs (es : List (String × FS)) (q : List String)
    (h : q ≠ []) : FS.lookup (.dir es) q = lookupEs es q := by
  cases q with
  | nil => exact absurd rfl h
  | cons a tl => rfl

theorem getEntry_some_mem (es : List (String × FS)) (n : String) (u : FS)
    (h : getEntry es n = some u) : n ∈ es.map Prod.fst := by
  induction es with
  | nil => simp [getEntry] at h
  | cons e r ih =>
    by_cases he : e.1 = n
    · simp [← he]
    · simp only [getEntry, if_neg he] at h
      simp [ih h]

theorem lookupEs_head_found (es : List (String × FS)) (a : String)
    (tl : List String) (x : FS) (h : lookupEs es (a :: tl) = some x) :
    ∃ u, getEntry es a = some u := by
  simp only [lookupEs] at h
  cases hget : getEntry es a with
  | none => rw [hget] at h; cases h
  | some u => exact ⟨u, rfl⟩

mutual
/-- Soundness of `findSkillDirByName` on well-formed trees: what it
returns is a directory with the target base name containing a manifest. -/
theorem findByName_sound : ∀ (t : FS) (selfName target : String) (q : List String),
    FS.wfb t = true →
    findByName t selfName target = some q →
    ∃ sub, FS.lookup t q = some (.dir sub) ∧ (getEntry sub "SKILL.md").isSome = true ∧
      q.getLastD selfName = target
  | .file c, selfName, target, q => by
    intro _ h
    simp [findByName] at h
  | .dir es, selfName, target, q => by
    intro hwf h
    unfold findByName at h
    by_cases hc : (selfName = target && (getEntry es "SKILL.md").isSome) = true
    · rw [if_pos hc] at h
      cases h
      rw [Bool.and_eq_true, decide_eq_true_eq] at hc
      exact ⟨es, rfl, hc.2, hc.1⟩
    · rw [if_neg hc] at h
      rcases findInList_sound es target q hwf h with ⟨sub, hne, hl, hm, hlast⟩
      refine ⟨sub, ?_, hm, ?_⟩
      · rw [lookup_dir_eq_lookupEs es q hne]; exact hl
      · cases q with
        | nil => exact absurd rfl hne
        | cons a tl => simpa [List.getLastD_cons] using hlast

theorem findInList_sound : ∀ (es : List (String × FS)) (target : String) (q : List String),
    FS.wfb (.dir es) = true →
    findInList es target = some q →
    ∃ sub, q ≠ [] ∧ lookupEs es q = some (.dir sub) ∧
      (getEntry sub "SKILL.md").isSome = true ∧ q.getLastD "" = target
  | [], target, q => by
    intro _ h
    simp [findInList] at h
  | (nm, t) :: rest, target, q => by
    intro hwf h
    unfold findInList at h
    cases hf : findByName t nm target with
    | some q' =>
      rw [hf] at h
      cases h
      rcases findByName_sound t nm target q' (wfb_dir_head (nm, t) rest hwf) hf with
        ⟨sub, hl, hm, hlast⟩
      refine ⟨sub, by simp, ?_, hm, ?_⟩
      · simp only [lookupEs, getEntry, if_pos rfl]
        exact hl
      · rw [List.getLastD_cons]
        exact hlast
    | none =>
      rw [hf] at h
      rcases findInList_sound rest target q (wfb_dir_tail (nm, t) rest hwf) h with
        ⟨sub, hne, hl, hm, hlast⟩
      cases q with
      | nil => exact absurd rfl hne
      | cons a tl =>
        by_cases hh : nm = a
        · subst hh
          rcases lookupEs_head_found rest nm tl _ hl with ⟨u, hu⟩
          exact absurd (getEntry_some_mem rest nm u hu)
            (wfb_head_not_mem (nm, t) rest hwf)
        · refine ⟨sub, hne, ?_, hm, hlast⟩
          rw [lookupEs_cons_ne (nm, t) rest a tl hh]
          exact hl
end

mutual
/-- Completeness of `findSkillDirByName`: if anywhere in the walk there is
a directory with the target base name containing a manifest, the search
returns a hit (the first one in pre-order). -/
theorem findByName_isSome : ∀ (t : FS) (selfName target : String),
    (∃ q sub, FS.lookup t q = some (.dir sub) ∧
      (getEntry sub "SKILL.md").isSome = true ∧ q.getLastD selfName = target) →
    (findByName t selfName target).isSome = true
  | .file c, selfName, target => by
    rintro ⟨q, sub, hl, hm, hlast⟩
    cases q with
    | nil => simp [FS.lookup] at hl
    | cons a tl => simp [FS.lookup] at hl
  | .dir es, selfName, target => by
    rintro ⟨q, sub, hl, hm, hlast⟩
    unfold findByName
    by_cases hc : (selfName = target && (getEntry es "SKILL.md").isSome) = true
    · rw [if_pos hc]; rfl
    · rw [if_neg hc]
      cases q with
      | nil =>
        simp only [FS.lookup] at hl
        cases hl
        simp only [List.getLastD] at hlast
        exact absurd (by rw [Bool.and_eq_true, decide_eq_true_eq]; exact ⟨hlast, hm⟩) hc
      | cons a tl =>
        simp only [FS.lookup] at hl
        cases hget : getEntry es a with
        | none => rw [hget] at hl; cases hl
        | some u =>
          rw [hget] at hl
          refine findInList_isSome es target ⟨a, tl, sub, u, hget, hl, hm, ?_⟩
          rw [List.getLastD_cons] at hlast
          exact hlast

theorem findInList_isSome : ∀ (es : List (String × FS)) (target : String),
    (∃ a tl sub u, getEntry es a = some u ∧ FS.lookup u tl = some (.dir sub) ∧
      (getEntry sub "SKILL.md").isSome = true ∧ tl.getLastD a = target) →
    (findInList es target).isSome = true
  | [], target => by
    rintro ⟨a, tl, sub, u, hget, _⟩
    simp [getEntry] at hget
  | (nm, t) :: rest, target => by
    rintro ⟨a, tl, sub, u, hget, hl, hm, hlast⟩
    unfold findInList
    cases hf : findByName t nm target with
    | some q' => rfl
    | none =>
      by_cases hh : nm = a
      · subst hh
        simp only [getEntry, if_pos rfl] at hget
        have hut : t = u := by cases hget; rfl
        subst hut
        have hsome := findByName_isSome t nm target ⟨tl, sub, hl, hm, hlast⟩
        rw [hf] at hsome
        cases hsome
      · simp only [getEntry, if_neg hh] at hget
        exact findInList_isSome rest target ⟨a, tl, sub, u, hget, hl, hm, hlast⟩
end

/-! ## Clean names in well-formed trees -/

theorem cleanbList_parts (e : String × FS) (rest : List (String × FS))
    (h : cleanbList (e :: rest) = true) :
    cleanName e.1 = true ∧ FS.cleanb e.2 = true ∧ cleanbList rest = true := by
  unfold cleanbList at h
  rw [Bool.and_eq_true, Bool.and_eq_true] at h
  exact ⟨h.1.1, h.1.2, h.2⟩

theorem wfb_getEntry (es : List (String × FS)) (n : String) (u : FS)
    (hwf : FS.wfb (.dir es) = true) (h : getEntry es n = some u) :
    FS.wfb u = true := by
  induction es with
  | nil => simp [getEntry] at h
  | cons e rest ih =>
    by_cases he : e.1 = n
    · simp only [getEntry, if_pos he] at h
      cases h
      exact wfb_dir_head e rest hwf
    · simp only [getEntry, if_neg he] at h
      exact ih (wfb_dir_tail e rest hwf) h

/-- Every segment of a path discovered by the walk is a legal on-disk
name. -/
theorem findList_clean (es : List (String × FS)) (p : List String)
    (hc : cleanbList es = true) (hp : p ∈ findList es) :
    ∀ x ∈ p, cleanName x = true := by
  induction es using findList.induct generalizing p with
  | case1 => simp [findList] at hp
  | case2 nm f rest ihs =>
    simp only [findList] at hp
    exact ihs p (cleanbList_parts _ rest hc).2.2 hp
  | case3 nm subEs rest ihsub ihs =>
    rcases cleanbList_parts (nm, .dir subEs) rest hc with ⟨hnm, hsub, hrest⟩
    have hsubl : cleanbList subEs = true := by
      unfold FS.cleanb at hsub
      exact hsub
    simp only [findList, List.mem_append] at hp
    rcases hp with (h1 | h1) | h1
    · by_cases hm : (getEntry subEs "SKILL.md").isSome
      · simp only [hm, if_pos, List.mem_singleton] at h1
        subst h1
        intro x hx
        simp only [List.mem_singleton] at hx
        subst hx
        exact hnm
      · simp [hm] at h1
    · rcases List.mem_map.mp h1 with ⟨q, hq, rfl⟩
      intro x hx
      rcases List.mem_cons.mp hx with rfl | hx'
      · exact hnm
      · exact ihsub q hsubl hq x hx'
    · exact ihs p hrest h1

/-! ## C3: resolving under a disabled mirror vs. listing -/

/-- **C3.**  If a directory named `repo` exists under the skills root and
(at any depth) holds a directory named `tool` with a manifest, then
`ReadSkill "repo/tool"` succeeds and locates such a directory — the
enabled-mirror list is not even an input of `ReadSkill` — while
`ListSkills` run with `repo` disabled produces no skill with identifier
`"repo/tool"`. -/
theorem c3_resolve_disabled (parse : FMParser) (rootEs : List (String × FS))
    (rootBase : String) (repos : List String) (repo tool : String) (rnode : FS)
    (hwf : FS.wfb (.dir rootEs) = true) (hg : goodList parse rootEs = true)
    (hcl : cleanbList rootEs = true)
    (hr : cleanName repo = true) (ht : cleanName tool = true)
    (hrnode : getEntry rootEs repo = some rnode)
    (hex : ∃ q sub, FS.lookup rnode q = some (.dir sub) ∧
      (getEntry sub "SKILL.md").isSome = true ∧ q.getLastD repo = tool)
    (hdis : repos.contains repo = false) :
    (∃ s, ReadSkill parse rootEs rootBase (repo ++ "/" ++ tool) = .ok s ∧
      s.readOnly = true ∧ s.sourcePath.headD "" = repo ∧
      pathBase rootBase s.sourcePath = tool ∧ isManifestDirAt rootEs s.sourcePath)
    ∧ (∀ s ∈ ListSkills parse rootEs rootBase repos, s.id ≠ repo ++ "/" ++ tool) := by
  have hrne : repo ≠ "" := cleanName_ne_empty repo hr
  have hrdot := cleanName_ne_dot repo hr
  constructor
  · -- ReadSkill succeeds
    rcases Option.isSome_iff_exists.mp (findByName_isSome rnode repo tool hex) with ⟨q, hq⟩
    rcases findByName_sound rnode repo tool q
        (wfb_getEntry rootEs repo rnode hwf hrnode) hq with ⟨sub, hlq, hm, hlast⟩
    have hlookfull : lookupEs rootEs (repo :: q) = some (.dir sub) := by
      simp only [lookupEs, hrnode]
      exact hlq
    rcases readSkillFromPath_succeeds parse rootEs rootBase (repo :: q)
        (repo ++ "/" ++ tool) true sub hg (by simp) hlookfull hm with ⟨s, hok⟩
    rcases readSkillFromPath_ok parse rootEs rootBase (repo :: q) _ _ s hok with
      ⟨hmeta, hid, hnm, hpath, hro⟩
    refine ⟨s, ?_, hro, by rw [hpath]; simp, ?_, ?_⟩
    · -- evaluate ReadSkill down to readSkillFromPath
      have hres : resolveRepoNode rootEs rootBase repo = some (rnode, repo) := by
        unfold resolveRepoNode
        rw [if_neg (by simp [hrne, hrdot.1]), if_neg hrdot.2, hrnode]
        rfl
      have hpfx : repoPfx repo = [repo] := by
        unfold repoPfx
        rw [if_neg (by simp [hrne, hrdot.1])]
      unfold ReadSkill
      simp only
      rw [splitSlash_pair repo tool (cleanName_slashFree repo hr)
        (cleanName_slashFree tool ht)]
      simp only [List.length_cons, List.length_nil, List.headD_cons,
        List.getLastD_cons, List.getLastD_nil, if_pos rfl]
      rw [hres]
      simp only
      rw [hq]
      simp only [hpfx]
      exact hok
    · rw [hpath]
      unfold pathBase
      rw [List.getLastD_cons]
      exact hlast
    · rw [hpath]
      exact ⟨sub, hlookfull, hm⟩
  · -- ListSkills with repo disabled never produces the identifier
    intro s hs hid
    rcases List.mem_filterMap.mp hs with ⟨p, hp, hstep⟩
    rcases listSkillsStep_some parse rootEs rootBase repos p s hstep with ⟨hnot, hread⟩
    rcases readSkillFromPath_ok parse rootEs rootBase p _ _ s hread with
      ⟨_, hsid, _, _, _⟩
    have hpclean := findList_clean rootEs p hcl hp
    have hpne : p ≠ [] := by
      rcases findList_head rootEs p hp with ⟨nm, tl, rfl, _⟩
      simp
    rw [hid] at hsid
    by_cases hcond : (repos.contains (p.headD "") && decide (2 ≤ p.length)) = true
    · rw [if_pos hcond] at hsid
      -- the identifier is head/last with head an enabled name; repo is not
      have hheadclean : cleanName (p.headD "") = true := by
        cases p with
        | nil => exact absurd rfl hpne
        | cons a tl => exact hpclean a (List.mem_cons_self a tl)
      have hlastclean : cleanName (p.getLastD "") = true := by
        cases p with
        | nil => exact absurd rfl hpne
        | cons a tl =>
          rw [List.getLastD_cons]
          exact hpclean _ (List.getLastD_mem_cons tl a)
      have : splitSlash (repo ++ "/" ++ tool) = splitSlash (p.headD "" ++ "/" ++ p.getLastD "") := by
        rw [hsid]
      rw [splitSlash_pair repo tool (cleanName_slashFree repo hr)
          (cleanName_slashFree tool ht),
        splitSlash_pair _ _ (cleanName_slashFree _ hheadclean)
          (cleanName_slashFree _ hlastclean)] at this
      have hhead : repo = p.headD "" := by
        cases this
        rfl
      rw [Bool.and_eq_true] at hcond
      rw [← hhead] at hcond
      rw [hcond.1] at hdis
      cases hdis
    · rw [if_neg hcond] at hsid
      -- the identifier is a bare clean name, which cannot contain a slash
      have hbase : cleanName (pathBase rootBase p) = true := by
        cases p with
        | nil => exact absurd rfl hpne
        | cons a tl =>
          unfold pathBase
          rw [List.getLastD_cons]
          exact hpclean _ (List.getLastD_mem_cons tl a)
      exact pair_ne_slashFree repo tool (pathBase rootBase p)
        (cleanName_slashFree _ hbase) hsid

theorem rootW_clean : cleanbList rootW = true := by
  simp [rootW, cleanbList, FS.cleanb, cleanName, slashFree]

/-- Witness for C3: in `rootW`, with the mirror list empty (so `repo` is
disabled), `ReadSkill "repo/tool"` still resolves while `ListSkills`
surfaces no `repo/tool`. -/
theorem c3_resolve_disabled_witness :
    (∃ s, ReadSkill parseW rootW "skills" ("repo" ++ "/" ++ "tool") = .ok s ∧
      s.readOnly = true ∧ s.sourcePath.headD "" = "repo" ∧
      pathBase "skills" s.sourcePath = "tool" ∧ isManifestDirAt rootW s.sourcePath)
    ∧ (∀ s ∈ ListSkills parseW rootW "skills" [], s.id ≠ "repo" ++ "/" ++ "tool") :=
  c3_resolve_disabled parseW rootW "skills" [] "repo" "tool"
    (.dir [("tool", .dir [("SKILL.md", .file [2])])])
    rootW_wfb rootW_good rootW_clean (by decide) (by decide) rfl
    ⟨["tool"], [("SKILL.md", .file [2])], rfl, rfl, rfl⟩ rfl

/-! ## Helpers for identifier-segment reasoning -/

theorem splitSlash_ne_nil (s : String) : splitSlash s ≠ [] := by
  unfold splitSlash
  intro h
  exact splitChars_ne_nil '/' s.toList (List.map_eq_nil_iff.mp h)

theorem getLastD_default_irrel (q : List String) (a b : String) (h : q ≠ []) :
    q.getLastD a = q.getLastD b := by
  cases q with
  | nil => exact absurd rfl h
  | cons x tl => rw [List.getLastD_cons, List.getLastD_cons]

theorem cleanPathGo_clean (parts acc : List String)
    (h : ∀ x ∈ parts, cleanName x = true) :
    cleanPathGo parts acc = acc.reverse ++ parts := by
  induction parts generalizing acc with
  | nil => simp [cleanPathGo]
  | cons s rest ih =>
    have hs : cleanName s = true := h s (List.mem_cons_self s rest)
    have hrest : ∀ x ∈ rest, cleanName x = true :=
      fun x hx => h x (List.mem_cons_of_mem s hx)
    have h1 : ¬ (s = "" || s = ".") = true := by
      simp [cleanName_ne_empty s hs, (cleanName_ne_dot s hs).1]
    unfold cleanPathGo
    rw [if_neg (by simpa using h1), if_neg (by simp [(cleanName_ne_dot s hs).2]),
      ih (s :: acc) hrest]
    simp

/-- `filepath.Clean` is the identity on a path of plain names. -/
theorem cleanPath_clean (parts : List String)
    (h : ∀ x ∈ parts, cleanName x = true) : cleanPath parts = parts := by
  unfold cleanPath
  rw [cleanPathGo_clean parts [] h]
  rfl

/-- Full inversion of `readSkillFromPath`. -/
theorem readSkillFromPath_ok_iff (parse : FMParser) (rootEs : List (String × FS))
    (rootBase : String) (p : List String) (nm : String) (ro : Bool) (s : Skill) :
    readSkillFromPath parse rootEs rootBase p nm ro = .ok s ↔
    ∃ c meta body, FS.lookup (.dir rootEs) (p ++ ["SKILL.md"]) = some (.file c) ∧
      parse c = .ok (meta, body) ∧ meta.name = pathBase rootBase p ∧
      s = { name := nm, id := nm, content := body, metadata := meta,
            sourcePath := p, readOnly := ro } := by
  constructor
  · intro h
    unfold readSkillFromPath at h
    cases hl : FS.lookup (.dir rootEs) (p ++ ["SKILL.md"]) with
    | none => rw [hl] at h; simp only at h; cases h
    | some x =>
      rw [hl] at h
      cases x with
      | dir sub => simp only at h; cases h
      | file c =>
        simp only at h
        cases hp : parse c with
        | error e => rw [hp] at h; simp only at h; cases h
        | ok mb =>
          rw [hp] at h
          rcases mb with ⟨meta, body⟩
          simp only at h
          by_cases hn : meta.name = pathBase rootBase p
          · rw [if_pos hn] at h
            cases h
            exact ⟨c, meta, body, rfl, hp, hn, rfl⟩
          · rw [if_neg hn] at h
            cases h
  · rintro ⟨c, meta, body, hl, hp, hn, rfl⟩
    unfold readSkillFromPath
    rw [hl]
    simp only
    rw [hp]
    simp only
    rw [if_pos hn]

/-- Inversion of `ReadSkill`: a success came either from the two-segment
mirror branch or from the literal-path local branch. -/
theorem ReadSkill_ok_inv (parse : FMParser) (rootEs : List (String × FS))
    (rootBase : String) (name : String) (s : Skill)
    (h : ReadSkill parse rootEs rootBase name = .ok s) :
    (∃ node selfName q, (splitSlash name).length = 2 ∧
      resolveRepoNode rootEs rootBase ((splitSlash name).headD "") = some (node, selfName) ∧
      findByName node selfName ((splitSlash name).getLastD "") = some q ∧
      readSkillFromPath parse rootEs rootBase
        (repoPfx ((splitSlash name).headD "") ++ q) name true = .ok s)
    ∨ ((splitSlash name).length ≠ 2 ∧
      readSkillFromPath parse rootEs rootBase (cleanPath (splitSlash name)) name false = .ok s) := by
  unfold ReadSkill at h
  simp only at h
  by_cases hlen : (splitSlash name).length = 2
  · rw [if_pos hlen] at h
    cases hres : resolveRepoNode rootEs rootBase ((splitSlash name).headD "") with
    | none => rw [hres] at h; simp only at h; cases h
    | some ns =>
      rw [hres] at h
      rcases ns with ⟨node, selfName⟩
      simp only at h
      cases hf : findByName node selfName ((splitSlash name).getLastD "") with
      | none => rw [hf] at h; simp only at h; cases h
      | some q =>
        rw [hf] at h
        simp only at h
        exact Or.inl ⟨node, selfName, q, hlen, rfl, hf, h⟩
  · rw [if_neg hlen] at h
    cases hl : FS.lookup (.dir rootEs) (cleanPath (splitSlash name) ++ ["SKILL.md"]) with
    | none => rw [hl] at h; simp only at h; cases h
    | some x =>
      rw [hl] at h
      simp only at h
      exact Or.inr ⟨hlen, h⟩

/-! ## C4: metadata name vs. directory base name vs. identifier -/

theorem resolveRepoNode_clean (rootEs : List (String × FS)) (rootBase a : String)
    (node : FS) (selfName : String) (ha : cleanName a = true)
    (h : resolveRepoNode rootEs rootBase a = some (node, selfName)) :
    selfName = a ∧ getEntry rootEs a = some node := by
  unfold resolveRepoNode at h
  rw [if_neg (by simp [cleanName_ne_empty a ha, (cleanName_ne_dot a ha).1]),
    if_neg (cleanName_ne_dot a ha).2] at h
  cases hget : getEntry rootEs a with
  | none => rw [hget] at h; cases h
  | some u =>
    rw [hget] at h
    simp only [Option.map_some'] at h
    cases h
    exact ⟨rfl, rfl⟩

theorem length_two_pair {α : Type} (l : List α) (h : l.length = 2) :
    ∃ a b, l = [a, b] := by
  cases l with
  | nil => simp at h
  | cons a tl =>
    cases tl with
    | nil => simp at h
    | cons b tl2 =>
      cases tl2 with
      | nil => exact ⟨a, b, rfl⟩
      | cons c tl3 => simp at h

/-- **C4 (amended).**  The manifest name always equals the base name of
the resolved directory — for every skill produced by `ListSkills` and
every skill `ReadSkill` resolves — and a parse result whose name differs
from the base name is a hard error.  The base name moreover equals the
identifier's last `/`-segment for all `ListSkills` identifiers, and for
`ReadSkill` identifiers whose segments are all plain names (for
identifiers with `.`/`..`/empty segments, Go's path cleaning can make the
resolved base name differ from the literal last segment). -/
theorem c4_name_matches (parse : FMParser) (rootEs : List (String × FS))
    (rootBase : String) (repos : List String)
    (hwf : FS.wfb (.dir rootEs) = true) (hcl : cleanbList rootEs = true) :
    (∀ s ∈ ListSkills parse rootEs rootBase repos,
      s.metadata.name = pathBase rootBase s.sourcePath ∧ s.metadata.name = lastSeg s.id)
    ∧ (∀ name s, ReadSkill parse rootEs rootBase name = .ok s →
      s.metadata.name = pathBase rootBase s.sourcePath ∧
        ((splitSlash name).all cleanName = true → s.metadata.name = lastSeg name))
    ∧ (∀ p nm ro c meta body,
      FS.lookup (.dir rootEs) (p ++ ["SKILL.md"]) = some (.file c) →
      parse c = .ok (meta, body) → meta.name ≠ pathBase rootBase p →
      ∃ e, readSkillFromPath parse rootEs rootBase p nm ro = .error e) := by
  refine ⟨?_, ?_, ?_⟩
  · -- ListSkills
    intro s hs
    rcases List.mem_filterMap.mp hs with ⟨p, hp, hstep⟩
    rcases listSkillsStep_some parse rootEs rootBase repos p s hstep with ⟨hnot, hread⟩
    rcases readSkillFromPath_ok parse rootEs rootBase p _ _ s hread with
      ⟨hmeta, hid, _, hpath, _⟩
    have hpclean := findList_clean rootEs p hcl hp
    have hpne : p ≠ [] := by
      rcases findList_head rootEs p hp with ⟨nm, tl, rfl, _⟩
      simp
    refine ⟨by rw [hpath]; exact hmeta, ?_⟩
    rw [hid]
    by_cases hcond : (repos.contains (p.headD "") && decide (2 ≤ p.length)) = true
    · rw [if_pos hcond]
      have hheadclean : cleanName (p.headD "") = true := by
        cases p with
        | nil => exact absurd rfl hpne
        | cons a tl => exact hpclean a (List.mem_cons_self a tl)
      have hlastclean : cleanName (p.getLastD "") = true := by
        cases p with
        | nil => exact absurd rfl hpne
        | cons a tl =>
          rw [List.getLastD_cons]
          exact hpclean _ (List.getLastD_mem_cons tl a)
      rw [lastSeg_pair _ _ (cleanName_slashFree _ hheadclean)
        (cleanName_slashFree _ hlastclean)]
      rw [hmeta]
      unfold pathBase
      exact getLastD_default_irrel p rootBase "" hpne
    · rw [if_neg hcond]
      have hbaseclean : cleanName (pathBase rootBase p) = true := by
        cases p with
        | nil => exact absurd rfl hpne
        | cons a tl =>
          unfold pathBase
          rw [List.getLastD_cons]
          exact hpclean _ (List.getLastD_mem_cons tl a)
      rw [lastSeg_single _ (cleanName_slashFree _ hbaseclean)]
      exact hmeta
  · -- ReadSkill
    intro name s h
    rcases ReadSkill_ok_inv parse rootEs rootBase name s h with
      ⟨node, selfName, q, hlen, hres, hf, hok⟩ | ⟨hlen, hok⟩
    · rcases readSkillFromPath_ok parse rootEs rootBase _ _ _ s hok with
        ⟨hmeta, _, _, hpath, _⟩
      refine ⟨by rw [hpath]; exact hmeta, ?_⟩
      intro hcleanid
      rcases length_two_pair (splitSlash name) hlen with ⟨a, b, hab⟩
      rw [hab] at hres hf
      have hac : cleanName a = true := by
        rw [hab] at hcleanid
        simp only [List.all_cons, Bool.and_eq_true] at hcleanid
        exact hcleanid.1
      have hbc : cleanName b = true := by
        rw [hab] at hcleanid
        simp only [List.all_cons, Bool.and_eq_true] at hcleanid
        exact hcleanid.2.1
      simp only [List.headD_cons, List.getLastD_cons, List.getLastD_nil] at hres hf
      rcases resolveRepoNode_clean rootEs rootBase a node selfName hac hres with
        ⟨hself, hget⟩
      rw [hself] at hf
      rcases findByName_sound node a b q
          (wfb_getEntry rootEs a node hwf hget) hf with ⟨_, _, _, hlast⟩
      have hpfx : repoPfx a = [a] := by
        unfold repoPfx
        rw [if_neg (by simp [cleanName_ne_empty a hac, (cleanName_ne_dot a hac).1])]
      rw [hmeta]
      unfold pathBase lastSeg
      rw [hab]
      simp only [List.headD_cons, List.getLastD_cons, List.getLastD_nil]
      rw [hpfx]
      simp only [List.cons_append, List.nil_append, List.getLastD_cons]
      exact hlast
    · rcases readSkillFromPath_ok parse rootEs rootBase _ _ _ s hok with
        ⟨hmeta, _, _, hpath, _⟩
      refine ⟨by rw [hpath]; exact hmeta, ?_⟩
      intro hcleanid
      have hclean2 : ∀ x ∈ splitSlash name, cleanName x = true := by
        intro x hx
        exact List.all_eq_true.mp hcleanid x hx
      rw [hmeta, cleanPath_clean _ hclean2]
      unfold pathBase lastSeg
      exact getLastD_default_irrel _ rootBase "" (splitSlash_ne_nil name)
  · -- hard mismatch error
    intro p nm ro c meta body hl hp hne
    exact ⟨_, readSkillFromPath_mismatch parse rootEs rootBase p nm ro c meta body hl hp hne⟩

/-- **C4, counterexample.**  `ReadSkill` happily resolves the identifier
`"repo/tool/."`: three segments, so the literal-path branch applies and
Go's path cleaning drops the trailing `"."`, resolving to directory
`repo/tool` whose manifest name `"tool"` is *not* the identifier's last
segment `"."`.  So "the identifier's last segment" is not an invariant of
every successfully resolved identifier. -/
theorem c4_counterexample :
    ReadSkill parseW rootW "skills" "repo/tool/." =
      .ok { name := "repo/tool/.", id := "repo/tool/.", content := "tool body",
            metadata := { name := "tool", description := "t" },
            sourcePath := ["repo", "tool"], readOnly := false }
    ∧ lastSeg "repo/tool/." ≠ "tool" := by
  constructor
  · rfl
  · decide

/-- Witness for C4 at the concrete library `rootW`. -/
theorem c4_name_matches_witness :
    (∀ s ∈ ListSkills parseW rootW "skills" ["repo"],
      s.metadata.name = pathBase "skills" s.sourcePath ∧ s.metadata.name = lastSeg s.id)
    ∧ (∀ name s, ReadSkill parseW rootW "skills" name = .ok s →
      s.metadata.name = pathBase "skills" s.sourcePath ∧
        ((splitSlash name).all cleanName = true → s.metadata.name = lastSeg name))
    ∧ (∀ p nm ro c meta body,
      FS.lookup (.dir rootW) (p ++ ["SKILL.md"]) = some (.file c) →
      parseW c = .ok (meta, body) → meta.name ≠ pathBase "skills" p →
      ∃ e, readSkillFromPath parseW rootW "skills" p nm ro = .error e) :=
  c4_name_matches parseW rootW "skills" ["repo"] rootW_wfb rootW_clean

/-! ## C8: identifiers with three or more segments -/

/-- A depth-3 hierarchy: `a/b/c` is a skill directory even though `a` and
`a/b` are not. -/
def rootC8 : List (String × FS) :=
  [("a", .dir [("b", .dir [("c", .dir [("SKILL.md", .file [3])])])])]

/-- **C8, counterexample.**  The identifier `"a/b/c"` has three segments;
the claim says `ReadSkill` rejects it, but the code's two-segment test
simply fails and the identifier falls through to the local branch, which
joins it onto the root as a literal path and resolves it. -/
theorem c8_counterexample :
    (splitSlash "a/b/c").length = 3 ∧
      ReadSkill parseW rootC8 "skills" "a/b/c" =
        .ok { name := "a/b/c", id := "a/b/c", content := "c body",
              metadata := { name := "c", description := "c" },
              sourcePath := ["a", "b", "c"], readOnly := false } := by
  constructor
  · decide
  · rfl

/-- **C8 (amended).**  Identifiers with three or more `/`-segments are
never produced by `ListSkills` (its identifiers have at most two
segments), but `ReadSkill` does not reject them: it treats such an
identifier as a literal path under the skills root (with Go path
cleaning), succeeding exactly when that directory directly contains a
manifest that parses to the directory's base name. -/
theorem c8_multiseg (parse : FMParser) (rootEs : List (String × FS))
    (rootBase : String) (repos : List String) (name : String) (parts : List String)
    (hcl : cleanbList rootEs = true)
    (hsplit : splitSlash name = parts) (hlen : 3 ≤ parts.length) :
    (∀ s ∈ ListSkills parse rootEs rootBase repos, (splitSlash s.id).length ≤ 2)
    ∧ ((∃ s, ReadSkill parse rootEs rootBase name = .ok s) ↔
        (∃ c meta body,
          FS.lookup (.dir rootEs) (cleanPath parts ++ ["SKILL.md"]) = some (.file c) ∧
          parse c = .ok (meta, body) ∧
          meta.name = pathBase rootBase (cleanPath parts))) := by
  constructor
  · intro s hs
    rcases List.mem_filterMap.mp hs with ⟨p, hp, hstep⟩
    rcases listSkillsStep_some parse rootEs rootBase repos p s hstep with ⟨_, hread⟩
    rcases readSkillFromPath_ok parse rootEs rootBase p _ _ s hread with
      ⟨_, hid, _, _, _⟩
    have hpclean := findList_clean rootEs p hcl hp
    have hpne : p ≠ [] := by
      rcases findList_head rootEs p hp with ⟨nm, tl, rfl, _⟩
      simp
    rw [hid]
    by_cases hcond : (repos.contains (p.headD "") && decide (2 ≤ p.length)) = true
    · rw [if_pos hcond]
      have hheadclean : cleanName (p.headD "") = true := by
        cases p with
        | nil => exact absurd rfl hpne
        | cons a tl => exact hpclean a (List.mem_cons_self a tl)
      have hlastclean : cleanName (p.getLastD "") = true := by
        cases p with
        | nil => exact absurd rfl hpne
        | cons a tl =>
          rw [List.getLastD_cons]
          exact hpclean _ (List.getLastD_mem_cons tl a)
      rw [splitSlash_pair _ _ (cleanName_slashFree _ hheadclean)
        (cleanName_slashFree _ hlastclean)]
      simp
    · rw [if_neg hcond]
      have hbaseclean : cleanName (pathBase rootBase p) = true := by
        cases p with
        | nil => exact absurd rfl hpne
        | cons a tl =>
          unfold pathBase
          rw [List.getLastD_cons]
          exact hpclean _ (List.getLastD_mem_cons tl a)
      rw [splitSlash_single _ (cleanName_slashFree _ hbaseclean)]
      simp
  · constructor
    · rintro ⟨s, hok⟩
      rcases ReadSkill_ok_inv parse rootEs rootBase name s hok with
        ⟨_, _, _, hlen2, _⟩ | ⟨_, hread⟩
      · rw [hsplit] at hlen2
        omega
      · rw [hsplit] at hread
        rcases (readSkillFromPath_ok_iff parse rootEs rootBase
            (cleanPath parts) name false s).mp hread with
          ⟨c, meta, body, hl, hp, hn, _⟩
        exact ⟨c, meta, body, hl, hp, hn⟩
    · rintro ⟨c, meta, body, hl, hp, hn⟩
      refine ⟨{ name := name, id := name, content := body, metadata := meta,
                sourcePath := cleanPath parts, readOnly := false }, ?_⟩
      unfold ReadSkill
      simp only
      rw [hsplit, if_neg (by omega : ¬ parts.length = 2), hl]
      simp only
      exact (readSkillFromPath_ok_iff parse rootEs rootBase
        (cleanPath parts) name false _).mpr ⟨c, meta, body, hl, hp, hn, rfl⟩

/-- Witness for C8 at the concrete depth-3 library `rootC8` and the
identifier `"a/b/c"`. -/
theorem c8_multiseg_witness :
    (∀ s ∈ ListSkills parseW rootC8 "skills" [], (splitSlash s.id).length ≤ 2)
    ∧ ((∃ s, ReadSkill parseW rootC8 "skills" "a/b/c" = .ok s) ↔
        (∃ c meta body,
          FS.lookup (.dir rootC8) (cleanPath ["a", "b", "c"] ++ ["SKILL.md"]) = some (.file c) ∧
          parseW c = .ok (meta, body) ∧
          meta.name = pathBase "skills" (cleanPath ["a", "b", "c"]))) :=
  c8_multiseg parseW rootC8 "skills" [] "a/b/c" ["a", "b", "c"]
    (by simp [rootC8, cleanbList, FS.cleanb, cleanName, slashFree]) (by decide) (by decide)

/-! ## C9: MIME detection and resource reading -/

/-- `filepath.Ext` on a base name: the suffix starting at the final dot
(including it), empty when there is no dot.  Callers pass base names, so
no separator handling is needed. -/
def extChars : List Char → List Char
  | [] => []
  | '.' :: rest =>
    match extChars rest with
    | [] => '.' :: rest
    | e => e
  | _ :: rest => extChars rest

def extOf (s : String) : String := ⟨extChars s.toList⟩

/-- The process-wide extension table behind `mime.TypeByExtension`
(Go's built-in entries possibly extended by system files); opaque to this
embedding, so definitions take it as a parameter.  An absent extension
yields `""`. -/
def MimeTable : Type := List (String × String)

def typeByExt (table : MimeTable) (ext : String) : String :=
  match table.find? (fun e => e.1 = ext) with
  | some e => e.2
  | none => ""

/-- `isTextContent`: no NUL byte among the first 512 bytes. -/
def isTextContent (content : List Nat) : Bool :=
  (content.take 512).all (fun b => b ≠ 0)

/-- Embedding of `domain.DetectMimeType`: extension lookup first; only
when the extension is unknown, sniff the content (NUL in the first 512
bytes means binary), defaulting to `application/octet-stream`. -/
def DetectMimeType (table : MimeTable) (filename : String) (content : List Nat) : String :=
  let mt := typeByExt table (extOf filename)
  if mt = "" then
    if content ≠ [] ∧ isTextContent content = true then "text/plain"
    else "application/octet-stream"
  else mt

/-- Embedding of `domain.IsTextFile`. -/
def IsTextFile (mimeType : String) : Bool :=
  hasPfx "text/" mimeType
    || ["application/json", "application/xml", "application/javascript",
        "application/x-sh", "application/x-python", "application/x-yaml",
        "application/x-toml"].contains mimeType

/-- One base64 alphabet code point (standard encoding, RFC 4648). -/
def b64Char (n : Nat) : Nat :=
  if n < 26 then 65 + n
  else if n < 52 then 97 + (n - 26)
  else if n < 62 then 48 + (n - 52)
  else if n = 62 then 43 else 47

/-- `base64.StdEncoding.EncodeToString`, as the byte values of the
resulting ASCII string (61 is `=` padding). -/
def base64Encode : List Nat → List Nat
  | [] => []
  | [a] => [b64Char (a / 4), b64Char (a % 4 * 16), 61, 61]
  | [a, b] => [b64Char (a / 4), b64Char (a % 4 * 16 + b / 16), b64Char (b % 16 * 4), 61]
  | a :: b :: c :: rest =>
    b64Char (a / 4) :: b64Char (a % 4 * 16 + b / 16) :: b64Char (b % 16 * 4 + c / 64)
      :: b64Char (c % 64) :: base64Encode rest

/-- `domain.ResourceContent`; `content` holds the byte values of the Go
`Content` string (the raw bytes for `utf-8`, the base64 text for
`base64`). -/
structure ResourceContent where
  content : List Nat
  encoding : String
  mimeType : String
  size : Nat
deriving Repr, DecidableEq

/-- Embedding of `getSkillPath`: the resolution `ReadSkillResource` and
`GetSkillResourceInfo` use — like `ReadSkill` but without reading the
manifest. -/
def getSkillPath (rootEs : List (String × FS)) (rootBase skillID : String) :
    Except String (List String) :=
  let parts := splitSlash skillID
  if parts.length = 2 then
    match resolveRepoNode rootEs rootBase (parts.headD "") with
    | none => .error ("skill not found: " ++ skillID)
    | some (node, selfName) =>
      match findByName node selfName (parts.getLastD "") with
      | none => .error ("skill not found: " ++ skillID)
      | some q => .ok (repoPfx (parts.headD "") ++ q)
  else
    let segs := cleanPath parts
    if (FS.lookup (.dir rootEs) (segs ++ ["SKILL.md"])).isSome then .ok segs
    else .error ("skill not found: " ++ skillID)

/-- `filepath.Base` of a relative path (as used on the validated resource
paths). -/
def baseGo (s : String) : String := (cleanPath (splitSlash s)).getLastD "."

/-- Embedding of `FileSystemManager.ReadSkillResource`: validate the path,
resolve the skill, read the file, detect the MIME type from the base name
and full content, and return raw bytes as `utf-8` when the MIME type is
text-readable, base64 otherwise — always reporting the encoding. -/
def ReadSkillResource (table : MimeTable) (rootEs : List (String × FS))
    (rootBase skillID resourcePath : String) : Except String ResourceContent :=
  match ValidateResourcePath resourcePath with
  | .error e => .error e
  | .ok _ =>
    match getSkillPath rootEs rootBase skillID with
    | .error e => .error e
    | .ok skillPath =>
      match FS.lookup (.dir rootEs) (skillPath ++ cleanPath (splitSlash resourcePath)) with
      | some (.file c) =>
        let mt := DetectMimeType table (baseGo resourcePath) c
        if IsTextFile mt then
          .ok { content := c, encoding := "utf-8", mimeType := mt, size := c.length }
        else
          .ok { content := base64Encode c, encoding := "base64", mimeType := mt,
                size := c.length }
      | _ => .error "failed to read resource"

/-- The extension table and skills root used by the C9 witnesses. -/
def tableT : MimeTable := [(".txt", "text/plain; charset=utf-8")]

/-- A root with a skill `demo` holding a NUL-containing `assets/x.txt`
and an extension-less NUL-containing `assets/y`. -/
def rootR : List (String × FS) :=
  [("demo", .dir [("SKILL.md", .file [1]),
                  ("assets", .dir [("x.txt", .file [0]), ("y", .file [0])])])]

/-- **C9, counterexample.**  `assets/x.txt` consists of a single NUL byte
— a NUL within the first 512 bytes — yet because the `.txt` extension is
looked up *first*, the file is classified `text/plain` and `read` returns
the raw bytes with encoding `"utf-8"`, not base64; the claim's
"NUL marks the file binary" does not come first. -/
theorem c9_counterexample :
    isTextContent [0] = false ∧
      ReadSkillResource tableT rootR "skills" "demo" "assets/x.txt" =
        .ok { content := [0], encoding := "utf-8",
              mimeType := "text/plain; charset=utf-8", size := 1 } :=
  ⟨rfl, rfl⟩

/-- **C9 (amended).**  Classification looks the MIME type up by file
extension *first*; only when the extension is unknown does content
sniffing apply, where a NUL byte within the first 512 bytes marks the file
binary (`application/octet-stream`) and NUL-free non-empty content is
`text/plain`.  `ReadSkillResource` returns the raw bytes with encoding
`"utf-8"` exactly when the detected MIME type is text-readable, and the
base64 encoding of the bytes with encoding `"base64"` otherwise, always
reporting the encoding used. -/
theorem c9_mime_read :
    (∀ (table : MimeTable) (filename : String) (content : List Nat),
      (typeByExt table (extOf filename) ≠ "" →
        DetectMimeType table filename content = typeByExt table (extOf filename))
      ∧ (typeByExt table (extOf filename) = "" →
        DetectMimeType table filename content =
          if content ≠ [] ∧ isTextContent content = true
          then "text/plain" else "application/octet-stream"))
    ∧ (∀ (table : MimeTable) (rootEs : List (String × FS))
        (rootBase skillID resourcePath : String) (r : ResourceContent),
      ReadSkillResource table rootEs rootBase skillID resourcePath = .ok r →
      ∃ skillPath c, getSkillPath rootEs rootBase skillID = .ok skillPath ∧
        FS.lookup (.dir rootEs)
          (skillPath ++ cleanPath (splitSlash resourcePath)) = some (.file c) ∧
        r.mimeType = DetectMimeType table (baseGo resourcePath) c ∧
        r.size = c.length ∧
        ((IsTextFile r.mimeType = true ∧ r.encoding = "utf-8" ∧ r.content = c) ∨
         (IsTextFile r.mimeType = false ∧ r.encoding = "base64" ∧
           r.content = base64Encode c))) := by
  constructor
  · intro table filename content
    constructor
    · intro hne
      unfold DetectMimeType
      rw [if_neg hne]
    · intro heq
      unfold DetectMimeType
      rw [heq, if_pos rfl]
  · intro table rootEs rootBase skillID resourcePath r h
    unfold ReadSkillResource at h
    cases hv : ValidateResourcePath resourcePath with
    | error e => rw [hv] at h; simp only at h; cases h
    | ok u =>
      rw [hv] at h
      simp only at h
      cases hg : getSkillPath rootEs rootBase skillID with
      | error e => rw [hg] at h; simp only at h; cases h
      | ok skillPath =>
        rw [hg] at h
        simp only at h
        cases hl : FS.lookup (.dir rootEs)
            (skillPath ++ cleanPath (splitSlash resourcePath)) with
        | none => rw [hl] at h; simp only at h; cases h
        | some x =>
          rw [hl] at h
          cases x with
          | dir sub => simp only at h; cases h
          | file c =>
            simp only at h
            refine ⟨skillPath, c, rfl, hl, ?_⟩
            by_cases ht : IsTextFile (DetectMimeType table (baseGo resourcePath) c) = true
            · rw [if_pos ht] at h
              cases h
              exact ⟨rfl, rfl, Or.inl ⟨ht, rfl, rfl⟩⟩
            · rw [if_neg ht] at h
              cases h
              exact ⟨rfl, rfl, Or.inr ⟨by simpa using ht, rfl, rfl⟩⟩

/-- Witness for C9's read-path characterization at `assets/y` (unknown
extension, NUL content, hence octet-stream and base64). -/
theorem c9_mime_read_witness :
    ∃ skillPath c, getSkillPath rootR "skills" "demo" = .ok skillPath ∧
      FS.lookup (.dir rootR)
        (skillPath ++ cleanPath (splitSlash "assets/y")) = some (.file c) ∧
      (ResourceContent.mk [65, 65, 61, 61] "base64" "application/octet-stream" 1).mimeType
        = DetectMimeType tableT (baseGo "assets/y") c ∧
      (ResourceContent.mk [65, 65, 61, 61] "base64" "application/octet-stream" 1).size
        = c.length ∧
      ((IsTextFile (ResourceContent.mk [65, 65, 61, 61] "base64"
          "application/octet-stream" 1).mimeType = true ∧
        (ResourceContent.mk [65, 65, 61, 61] "base64" "application/octet-stream" 1).encoding
          = "utf-8" ∧
        (ResourceContent.mk [65, 65, 61, 61] "base64" "application/octet-stream" 1).content
          = c) ∨
       (IsTextFile (ResourceContent.mk [65, 65, 61, 61] "base64"
          "application/octet-stream" 1).mimeType = false ∧
        (ResourceContent.mk [65, 65, 61, 61] "base64" "application/octet-stream" 1).encoding
          = "base64" ∧
        (ResourceContent.mk [65, 65, 61, 61] "base64" "application/octet-stream" 1).content
          = base64Encode c)) :=
  c9_mime_read.2 tableT rootR "skills" "demo" "assets/y"
    (ResourceContent.mk [65, 65, 61, 61] "base64" "application/octet-stream" 1) rfl

/-! ## The archive model (`ExportSkill` / `ImportSkill`)

A tar.gz archive is modelled as its logical content: the sequence of tar
entries.  `archive/tar` and `compress/gzip` are external, faithful codecs
(spec §1), so serialization is the identity on this sequence.  An entry
name is kept as its `/`-split segment list; directory entries carry
`isDir = true` and empty content. -/

structure TarEntry where
  name : List String
  isDir : Bool
  content : List Nat
deriving Repr, DecidableEq

mutual
/-- The entries `filepath.Walk` emits for one child (`nm`, subtree `t`) of
a directory whose archive path is `pfx`: the node itself first, then (for
directories) its children in lexical order — pre-order, as `Walk`
guarantees. -/
def tarOfFS (pfx : List String) (nm : String) : FS → List TarEntry
  | .file c => [⟨pfx ++ [nm], false, c⟩]
  | .dir es => ⟨pfx ++ [nm], true, []⟩ :: tarList (pfx ++ [nm]) es

def tarList (pfx : List String) : List (String × FS) → List TarEntry
  | [] => []
  | (nm, t) :: rest => tarOfFS pfx nm t ++ tarList pfx rest
end

/-- Embedding of `domain.ValidateSkillName`: 1–64 characters, no
leading/trailing/double hyphen, and only lowercase letters, digits and
hyphens with alphanumeric first and last characters (the compiled regex
`^[a-z0-9]([a-z0-9-]*[a-z0-9])?$`). -/
def lowerAlnum (c : Char) : Bool :=
  ('a' ≤ c && c ≤ 'z') || ('0' ≤ c && c ≤ '9')

def nameChar (c : Char) : Bool := lowerAlnum c || c = '-'

def matchesNameRe (s : String) : Bool :=
  match s.toList with
  | [] => false
  | c :: rest =>
    match rest.getLast? with
    | none => lowerAlnum c
    | some d => lowerAlnum c && rest.dropLast.all nameChar && lowerAlnum d

def hasDoubleHyphen : List Char → Bool
  | '-' :: '-' :: _ => true
  | _ :: rest => hasDoubleHyphen rest
  | [] => false

def ValidateSkillName (name : String) : Except String Unit :=
  if name.length = 0 then .error "skill name is required"
  else if 64 < name.length then .error "skill name must be 1-64 characters"
  else if hasPfx "-" name || hasSfx "-" name then
    .error "skill name cannot start or end with a hyphen"
  else if hasDoubleHyphen name.toList then
    .error "skill name cannot contain consecutive hyphens"
  else if ¬ matchesNameRe name then
    .error "skill name may only contain lowercase letters, numbers, and hyphens"
  else .ok ()

/-- Embedding of `domain.ExportSkill`: resolve the skill (mirror ids by
recursive search, local ids as a literal path), then serialize its
directory subtree; the top-level entry name is the directory's base name,
never the qualified identifier. -/
def ExportSkill (rootEs : List (String × FS)) (rootBase skillID : String) :
    Except String (List TarEntry) :=
  let parts := splitSlash skillID
  if parts.length = 2 then
    match resolveRepoNode rootEs rootBase (parts.headD "") with
    | none => .error ("skill not found: " ++ skillID)
    | some (node, selfName) =>
      match findByName node selfName (parts.getLastD "") with
      | none => .error ("skill not found: " ++ skillID)
      | some q =>
        match FS.lookup node q with
        | some (.dir es) => .ok (tarList [parts.getLastD ""] es)
        | _ => .error ("skill not found: " ++ skillID)  -- unreachable: the hit is a directory
  else if 2 ≤ parts.length then
    .error ("invalid skill ID format: " ++ skillID)
  else
    let segs := cleanPath parts
    if (FS.lookup (.dir rootEs) (segs ++ ["SKILL.md"])).isSome then
      match FS.lookup (.dir rootEs) segs with
      | some (.dir es) => .ok (tarList [segs.getLastD rootBase] es)
      | _ => .error ("skill not found: " ++ skillID)  -- unreachable: SKILL.md was stat'ed inside
    else .error ("skill not found: " ++ skillID)

/-- Pass 1 of `ImportSkill`: scan every entry, derive and validate the
skill name from the first entry's first segment, record whether any entry
name ends in `SKILL.md`, and reject any entry name containing `".."`. -/
def pass1go : List TarEntry → Option String → Bool → Except String String
  | [], skOpt, hasMd =>
    match skOpt with
    | none => .error "archive does not contain a skill directory"
    | some n => if hasMd then .ok n else .error "archive does not contain SKILL.md file"
  | e :: rest, skOpt, hasMd =>
    match skOpt with
    | some n =>
      if e.name.any containsDotDot then .error "invalid path in archive"
      else pass1go rest (some n) (hasMd || hasSfx "SKILL.md" (e.name.getLastD ""))
    | none =>
      match ValidateSkillName (e.name.headD "") with
      | .error msg => .error ("invalid skill name in archive: " ++ msg)
      | .ok _ =>
        if e.name.any containsDotDot then .error "invalid path in archive"
        else pass1go rest (some (e.name.headD ""))
          (hasMd || hasSfx "SKILL.md" (e.name.getLastD ""))

def pass1 (ents : List TarEntry) : Except String String := pass1go ents none false

/-- `os.MkdirAll`: create the chain of directories; fails iff an existing
component along the path is a regular file (in which case nothing is
created). -/
def FS.mkdirAll : FS → List String → Option FS
  | .dir es, [] => some (.dir es)
  | .file _, [] => none
  | .file _, _ :: _ => none
  | .dir es, n :: rest =>
    match (match getEntry es n with
           | some t => t
           | none => FS.dir []).mkdirAll rest with
    | some sub2 => some (.dir (setEntry es n sub2))
    | none => none

/-- `os.OpenFile(…, O_CREATE|O_TRUNC|O_WRONLY)` + write: create or
truncate the file; fails if a path component is a file, the parent is
missing, or the target exists as a directory. -/
def FS.writeFile (t : FS) (p : List String) (c : List Nat) : Option FS :=
  match t, p with
  | _, [] => none
  | .file _, _ :: _ => none
  | .dir es, n :: rest =>
    match rest with
    | [] =>
      match getEntry es n with
      | some (.dir _) => none
      | _ => some (.dir (setEntry es n (.file c)))
    | _ :: _ =>
      match getEntry es n with
      | some u =>
        match u.writeFile rest c with
        | some u2 => some (.dir (setEntry es n u2))
        | none => none
      | none => none
termination_by structural p

/-- The cleaning `filepath.Join` applies to the relative part of a target
path: empty and `.` segments vanish.  (`..` segments never reach a `Join`:
both passes reject any entry whose name contains `".."` first.) -/
def cleanSegs (l : List String) : List String :=
  l.filter (fun s => s ≠ "" && s ≠ ".")

/-- Pass 2 of `ImportSkill`, one entry: entries with fewer than two
segments are skipped; the first segment is replaced by the skill name
derived in pass 1 and the remainder extracted under `root/n`.  The
containment check (`absTarget` has `absSkillsDir` as prefix) always passes
because the target is `root/n/…` by construction, and is not modelled
separately. -/
def extractEntry (root : FS) (n : String) (e : TarEntry) : Except String FS :=
  if e.name.length < 2 then .ok root
  else if e.name.tail.any containsDotDot then .error "invalid path in archive"
  else
    let relSegs := cleanSegs e.name.tail
    if e.isDir then
      match root.mkdirAll (n :: relSegs) with
      | some r => .ok r
      | none => .error "failed to create directory"
    else
      match root.mkdirAll (n :: relSegs).dropLast with
      | some r1 =>
        match r1.writeFile (n :: relSegs) e.content with
        | some r2 => .ok r2
        | none => .error "failed to create file"
      | none => .error "failed to create parent directory"

/-- Pass 2 over all entries; an error aborts immediately, keeping the
filesystem state reached so far (no rollback at this level). -/
def extractList (n : String) : List TarEntry → FS → Option String × FS
  | [], fs => (none, fs)
  | e :: rest, fs =>
    match extractEntry fs n e with
    | .ok fs2 => extractList n rest fs2
    | .error msg => (some msg, fs)

/-- `os.RemoveAll(root/n)`. -/
def FS.removeTop : FS → String → FS
  | .dir es, n => .dir (removeEntry es n)
  | t, _ => t

/-- Embedding of `domain.ImportSkill`.  Returns the result together with
the final state of the destination root. -/
def ImportSkill (parse : FMParser) (ents : List TarEntry) (root : FS) :
    Except String String × FS :=
  match pass1 ents with
  | .error e => (.error e, root)
  | .ok n =>
    if (root.lookup [n]).isSome then
      (.error ("skill '" ++ n ++ "' already exists"), root)
    else
      match extractList n ents root with
      | (some msg, fs2) => (.error msg, fs2)
      | (none, fs2) =>
        match fs2.lookup [n, "SKILL.md"] with
        | some (.file c) =>
          match parse c with
          | .error e => (.error ("failed to parse SKILL.md: " ++ e), fs2.removeTop n)
          | .ok (meta, _) =>
            if meta.name = n then (.ok n, fs2)
            else (.error "skill name in frontmatter does not match directory name",
                  fs2.removeTop n)
        | _ => (.error "failed to read SKILL.md", fs2.removeTop n)

/-! ## Sorted-insertion lemmas for extraction -/

theorem keysSorted_cons_forall (e : String × FS) (l : List (String × FS)) :
    keysSorted (e :: l) = true ↔ keysSorted l = true ∧ ∀ x ∈ l, e.1 < x.1 := by
  constructor
  · intro h
    exact ⟨keysSorted_tail e l h, keysSorted_head_lt e l h⟩
  · rintro ⟨hl, hall⟩
    cases l with
    | nil => rfl
    | cons b rest =>
      show (decide (e.1 < b.1) && keysSorted (b :: rest)) = true
      rw [Bool.and_eq_true, decide_eq_true_eq]
      exact ⟨hall b (List.mem_cons_self b rest), hl⟩

theorem mem_setEntry (es : List (String × FS)) (n : String) (t : FS)
    (x : String × FS) (h : x ∈ setEntry es n t) : x = (n, t) ∨ x ∈ es := by
  induction es with
  | nil => simpa [setEntry] using h
  | cons e rest ih =>
    by_cases h1 : strLtb n e.1 = true
    · simp only [setEntry, if_pos h1] at h
      rcases List.mem_cons.mp h with h2 | h2
      · exact Or.inl h2
      · exact Or.inr h2
    · by_cases h2 : e.1 = n
      · simp only [setEntry, if_neg h1, if_pos h2] at h
        rcases List.mem_cons.mp h with h3 | h3
        · exact Or.inl h3
        · exact Or.inr (List.mem_cons_of_mem e h3)
      · simp only [setEntry, if_neg h1, if_neg h2] at h
        rcases List.mem_cons.mp h with h3 | h3
        · exact Or.inr (h3 ▸ List.mem_cons_self e rest)
        · rcases ih h3 with h4 | h4
          · exact Or.inl h4
          · exact Or.inr (List.mem_cons_of_mem e h4)

theorem keysSorted_setEntry (es : List (String × FS)) (n : String) (t : FS)
    (hs : keysSorted es = true) : keysSorted (setEntry es n t) = true := by
  induction es with
  | nil => rfl
  | cons e rest ih =>
    rcases (keysSorted_cons_forall e rest).mp hs with ⟨hrest, hall⟩
    by_cases h1 : strLtb n e.1 = true
    · simp only [setEntry, if_pos h1]
      refine (keysSorted_cons_forall (n, t) (e :: rest)).mpr ⟨hs, ?_⟩
      intro x hx
      rcases List.mem_cons.mp hx with hx1 | hx2
      · rw [hx1]
        exact (strLtb_iff n e.1).mp h1
      · exact lt_trans ((strLtb_iff n e.1).mp h1) (hall x hx2)
    · by_cases h2 : e.1 = n
      · simp only [setEntry, if_neg h1, if_pos h2]
        refine (keysSorted_cons_forall (n, t) rest).mpr ⟨hrest, ?_⟩
        intro x hx
        exact h2 ▸ hall x hx
      · simp only [setEntry, if_neg h1, if_neg h2]
        refine (keysSorted_cons_forall e (setEntry rest n t)).mpr ⟨ih hrest, ?_⟩
        intro x hx
        rcases mem_setEntry rest n t x hx with rfl | hx2
        · rcases lt_trichotomy e.1 n with h3 | h3 | h3
          · exact h3
          · exact absurd h3 h2
          · exact absurd ((strLtb_iff n e.1).mpr h3) h1
        · exact hall x hx2

theorem setEntry_append_gt (ds : List (String × FS)) (m : String) (t : FS)
    (h : ∀ a ∈ ds, a.1 < m) : setEntry ds m t = ds ++ [(m, t)] := by
  induction ds with
  | nil => rfl
  | cons e rest ih =>
    have hlt : e.1 < m := h e (List.mem_cons_self e rest)
    have h1 : ¬ strLtb m e.1 = true := by
      intro hc
      exact absurd ((strLtb_iff m e.1).mp hc) (not_lt_of_gt hlt)
    have h2 : ¬ e.1 = m := ne_of_lt hlt
    simp only [setEntry, if_neg h1, if_neg h2, List.cons_append]
    rw [ih (fun a ha => h a (List.mem_cons_of_mem e ha))]

theorem setEntry_self_sorted (es : List (String × FS)) (n : String) (t : FS)
    (hs : keysSorted es = true) (h : getEntry es n = some t) :
    setEntry es n t = es := by
  induction es with
  | nil => simp [getEntry] at h
  | cons e rest ih =>
    by_cases h2 : e.1 = n
    · simp only [getEntry, if_pos h2] at h
      cases h
      have h1 : ¬ strLtb n e.1 = true := by
        rw [h2, strLtb_self]
        simp
      simp only [setEntry, if_neg h1, if_pos h2]
      rw [← h2]
    · simp only [getEntry, if_neg h2] at h
      have hmem : n ∈ rest.map Prod.fst := getEntry_some_mem rest n t h
      have hgt : e.1 < n := by
        rcases List.mem_map.mp hmem with ⟨x, hx, hx1⟩
        rw [← hx1]
        exact keysSorted_head_lt e rest hs x hx
      have h1 : ¬ strLtb n e.1 = true := by
        intro hc
        exact absurd ((strLtb_iff n e.1).mp hc) (not_lt_of_gt hgt)
      simp only [setEntry, if_neg h1, if_neg h2]
      rw [ih (keysSorted_tail e rest hs) h]

theorem wfbList_mem (es : List (String × FS)) (x : String × FS)
    (h : wfbList es = true) (hx : x ∈ es) : FS.wfb x.2 = true := by
  induction es with
  | nil => cases hx
  | cons e rest ih =>
    unfold wfbList at h
    rw [Bool.and_eq_true] at h
    rcases List.mem_cons.mp hx with rfl | hx2
    · exact h.1
    · exact ih h.2 hx2

theorem wfbList_setEntry (es : List (String × FS)) (n : String) (t : FS)
    (hs : wfbList es = true) (ht : FS.wfb t = true) :
    wfbList (setEntry es n t) = true := by
  induction es with
  | nil =>
    unfold setEntry wfbList
    rw [ht]
    rfl
  | cons e rest ih =>
    unfold wfbList at hs
    rw [Bool.and_eq_true] at hs
    by_cases h1 : strLtb n e.1 = true
    · simp only [setEntry, if_pos h1]
      unfold wfbList
      rw [ht]
      unfold wfbList
      rw [hs.1, hs.2]
      rfl
    · by_cases h2 : e.1 = n
      · simp only [setEntry, if_neg h1, if_pos h2]
        unfold wfbList
        rw [ht, hs.2]
        rfl
      · simp only [setEntry, if_neg h1, if_neg h2]
        unfold wfbList
        rw [hs.1, ih hs.2]
        rfl

/-! ## C6: what import rollback does and does not restore -/

theorem mkdirAll_top_frame (es : List (String × FS)) (n : String)
    (q : List String) (fs2 : FS) (hs : keysSorted es = true)
    (h : FS.mkdirAll (.dir es) (n :: q) = some fs2) :
    ∃ es2, fs2 = .dir es2 ∧ keysSorted es2 = true ∧
      removeEntry es2 n = removeEntry es n := by
  unfold FS.mkdirAll at h
  cases hsub : (match getEntry es n with
      | some t => t
      | none => FS.dir []).mkdirAll q with
  | none => rw [hsub] at h; cases h
  | some sub2 =>
    rw [hsub] at h
    simp only at h
    cases h
    exact ⟨setEntry es n sub2, rfl, keysSorted_setEntry es n sub2 hs,
      removeEntry_setEntry es n sub2 hs⟩

theorem writeFile_top_frame (es : List (String × FS)) (n : String)
    (q : List String) (c : List Nat) (fs2 : FS) (hs : keysSorted es = true)
    (h : FS.writeFile (.dir es) (n :: q) c = some fs2) :
    ∃ es2, fs2 = .dir es2 ∧ keysSorted es2 = true ∧
      removeEntry es2 n = removeEntry es n := by
  unfold FS.writeFile at h
  cases q with
  | nil =>
    simp only at h
    cases hget : getEntry es n with
    | none =>
      rw [hget] at h
      simp only at h
      cases h
      exact ⟨setEntry es n (.file c), rfl, keysSorted_setEntry es n _ hs,
        removeEntry_setEntry es n _ hs⟩
    | some u =>
      rw [hget] at h
      cases u with
      | dir sub => simp only at h; cases h
      | file cc =>
        simp only at h
        cases h
        exact ⟨setEntry es n (.file c), rfl, keysSorted_setEntry es n _ hs,
          removeEntry_setEntry es n _ hs⟩
  | cons a q' =>
    simp only at h
    cases hget : getEntry es n with
    | none => rw [hget] at h; simp only at h; cases h
    | some u =>
      rw [hget] at h
      simp only at h
      cases hw : u.writeFile (a :: q') c with
      | none => rw [hw] at h; simp only at h; cases h
      | some u2 =>
        rw [hw] at h
        simp only at h
        cases h
        exact ⟨setEntry es n u2, rfl, keysSorted_setEntry es n _ hs,
          removeEntry_setEntry es n _ hs⟩

theorem extractEntry_frame (es : List (String × FS)) (n : String) (e : TarEntry)
    (fs2 : FS) (hs : keysSorted es = true)
    (h : extractEntry (.dir es) n e = .ok fs2) :
    ∃ es2, fs2 = .dir es2 ∧ keysSorted es2 = true ∧
      removeEntry es2 n = removeEntry es n := by
  unfold extractEntry at h
  by_cases hlen : e.name.length < 2
  · rw [if_pos hlen] at h
    cases h
    exact ⟨es, rfl, hs, rfl⟩
  · rw [if_neg hlen] at h
    by_cases hdd : e.name.tail.any containsDotDot = true
    · rw [if_pos hdd] at h; cases h
    · rw [if_neg hdd] at h
      simp only at h
      by_cases hdir : e.isDir = true
      · rw [if_pos hdir] at h
        cases hm : FS.mkdirAll (.dir es) (n :: cleanSegs e.name.tail) with
        | none => rw [hm] at h; simp only at h; cases h
        | some r =>
          rw [hm] at h
          simp only at h
          cases h
          exact mkdirAll_top_frame es n _ _ hs hm
      · rw [if_neg hdir] at h
        cases hrel : cleanSegs e.name.tail with
        | nil =>
          rw [hrel] at h
          simp only [List.dropLast] at h
          -- parent is the root itself: MkdirAll([]) is the identity
          have hmk : FS.mkdirAll (.dir es) ([] : List String) = some (.dir es) := rfl
          rw [hmk] at h
          simp only at h
          cases hw : FS.writeFile (.dir es) [n] e.content with
          | none => rw [hw] at h; simp only at h; cases h
          | some r2 =>
            rw [hw] at h
            simp only at h
            cases h
            exact writeFile_top_frame es n [] e.content _ hs hw
        | cons a q' =>
          rw [hrel] at h
          have hdl : (n :: a :: q').dropLast = n :: (a :: q').dropLast := rfl
          rw [hdl] at h
          cases hm : FS.mkdirAll (.dir es) (n :: (a :: q').dropLast) with
          | none => rw [hm] at h; simp only at h; cases h
          | some r1 =>
            rw [hm] at h
            simp only at h
            rcases mkdirAll_top_frame es n _ _ hs hm with ⟨es1, rfl, hs1, hrem1⟩
            cases hw : FS.writeFile (.dir es1) (n :: a :: q') e.content with
            | none => rw [hw] at h; simp only at h; cases h
            | some r2 =>
              rw [hw] at h
              simp only at h
              cases h
              rcases writeFile_top_frame es1 n _ _ _ hs1 hw with ⟨es2, rfl, hs2, hrem2⟩
              exact ⟨es2, rfl, hs2, by rw [hrem2, hrem1]⟩

theorem extractList_frame (ents : List TarEntry) (n : String)
    (es : List (String × FS)) (o : Option String) (fs' : FS)
    (hs : keysSorted es = true)
    (h : extractList n ents (.dir es) = (o, fs')) :
    ∃ es2, fs' = .dir es2 ∧ keysSorted es2 = true ∧
      removeEntry es2 n = removeEntry es n := by
  induction ents generalizing es with
  | nil =>
    unfold extractList at h
    cases h
    exact ⟨es, rfl, hs, rfl⟩
  | cons e rest ih =>
    unfold extractList at h
    cases hee : extractEntry (.dir es) n e with
    | error msg =>
      rw [hee] at h
      simp only at h
      cases h
      exact ⟨es, rfl, hs, rfl⟩
    | ok fsm =>
      rw [hee] at h
      simp only at h
      rcases extractEntry_frame es n e fsm hs hee with ⟨esm, rfl, hsm, hremm⟩
      rcases ih esm hsm h with ⟨es2, rfl, hs2, hrem2⟩
      exact ⟨es2, rfl, hs2, by rw [hrem2, hremm]⟩

/-- **C6, counterexample.**  A crafted archive whose third entry makes a
directory out of a path already written as a file causes an error in the
middle of the extraction pass; the code returns *without* deleting the
tree extracted so far, so a failed import can leave the destination root
changed — import is not all-or-nothing for every error. -/
theorem c6_counterexample :
    (ImportSkill parseW
      [⟨["s", "SKILL.md"], false, [1]⟩, ⟨["s", "a"], false, [2]⟩,
       ⟨["s", "a", "b"], true, []⟩] (.dir [])).1
      = .error "failed to create directory"
    ∧ (ImportSkill parseW
      [⟨["s", "SKILL.md"], false, [1]⟩, ⟨["s", "a"], false, [2]⟩,
       ⟨["s", "a", "b"], true, []⟩] (.dir [])).2 ≠ .dir [] := by
  constructor
  · rfl
  · intro h
    rw [show (ImportSkill parseW
        [⟨["s", "SKILL.md"], false, [1]⟩, ⟨["s", "a"], false, [2]⟩,
         ⟨["s", "a", "b"], true, []⟩] (.dir [])).2
      = .dir [("s", .dir [("SKILL.md", .file [1]), ("a", .file [2])])] from rfl] at h
    exact List.cons_ne_nil _ _ (FS.dir.inj h)

/-- **C6 (amended).**  Import is all-or-nothing for pass-1 validation
failures, for the already-exists check, and for every error raised after
the extraction pass completed (unreadable or unparseable manifest, and the
name-mismatch check in particular): in those cases the destination root is
returned unchanged, the extracted tree being deleted where needed.  (An
error *during* the extraction pass itself aborts without rollback, see the
counterexample.) -/
theorem c6_rollback (parse : FMParser) (ents : List TarEntry)
    (es : List (String × FS)) (hs : keysSorted es = true) :
    (∀ e, pass1 ents = .error e →
      ImportSkill parse ents (.dir es) = (.error e, .dir es))
    ∧ (∀ n, pass1 ents = .ok n → (FS.lookup (.dir es) [n]).isSome = true →
      ImportSkill parse ents (.dir es) =
        (.error ("skill '" ++ n ++ "' already exists"), .dir es))
    ∧ (∀ n fs2 msg, pass1 ents = .ok n → (FS.lookup (.dir es) [n]).isSome = false →
      extractList n ents (.dir es) = (none, fs2) →
      (ImportSkill parse ents (.dir es)).1 = .error msg →
      (ImportSkill parse ents (.dir es)).2 = .dir es) := by
  refine ⟨?_, ?_, ?_⟩
  · intro e he
    unfold ImportSkill
    rw [he]
  · intro n hn hex
    unfold ImportSkill
    rw [hn]
    simp only
    rw [if_pos hex]
  · intro n fs2 msg hn hex hextract
    have hgnone : getEntry es n = none := by
      have : FS.lookup (.dir es) [n] = getEntry es n := by
        unfold FS.lookup
        cases getEntry es n with
        | none => rfl
        | some t => simp only; cases t <;> rfl
      rw [this] at hex
      cases hg : getEntry es n with
      | none => rfl
      | some t => rw [hg] at hex; cases hex
    rcases extractList_frame ents n es none fs2 hs hextract with ⟨es2, rfl, _, hrem⟩
    have hrestore : FS.removeTop (.dir es2) n = .dir es := by
      unfold FS.removeTop
      simp only
      rw [hrem, removeEntry_of_absent es n hgnone]
    unfold ImportSkill
    rw [hn]
    simp only
    rw [if_neg (by rw [hex]; exact Bool.false_ne_true), hextract]
    simp only
    intro h1
    cases hl : FS.lookup (.dir es2) [n, "SKILL.md"] with
    | none => simp only [hl]; exact hrestore
    | some x =>
      cases x with
      | dir sub => simp only [hl]; exact hrestore
      | file c =>
        simp only [hl]
        cases hp : parse c with
        | error e => simp only [hp]; exact hrestore
        | ok mb =>
          rcases mb with ⟨meta, body⟩
          simp only [hp]
          by_cases hname : meta.name = n
          · rw [hl] at h1
            simp only at h1
            rw [hp] at h1
            simp only at h1
            simp only [if_pos hname] at h1
            cases h1
          · rw [if_neg hname]
            exact hrestore

/-- **C6, witness.**  A one-file archive whose manifest fails to parse:
the extraction pass completes, the manifest check then fails, and the
extracted tree is removed, leaving the empty destination root unchanged. -/
theorem c6_rollback_witness :
    (ImportSkill parseW [⟨["s", "SKILL.md"], false, [9]⟩] (.dir [])).2
      = .dir [] :=
  (c6_rollback parseW [⟨["s", "SKILL.md"], false, [9]⟩] [] rfl).2.2 "s"
    (extractList "s" [⟨["s", "SKILL.md"], false, [9]⟩] (.dir [])).2
    "failed to parse SKILL.md: bad frontmatter" rfl rfl rfl rfl

/-- A successful `writeFile` leaves the written bytes at the written path. -/
theorem lookup_writeFile (p : List String) : ∀ (t r : FS) (c : List Nat),
    FS.writeFile t p c = some r → r.lookup p = some (.file c) := by
  induction p with
  | nil =>
    intro t r c h
    unfold FS.writeFile at h
    cases t <;> cases h
  | cons n rest ih =>
    intro t r c h
    cases t with
    | file b => unfold FS.writeFile at h; cases h
    | dir es =>
      cases rest with
      | nil =>
        unfold FS.writeFile at h
        simp only at h
        cases hg : getEntry es n with
        | none =>
          rw [hg] at h
          simp only at h
          cases h
          unfold FS.lookup
          rw [getEntry_setEntry_self]
          rfl
        | some u =>
          rw [hg] at h
          cases u with
          | dir _ => simp only at h; cases h
          | file _ =>
            simp only at h
            cases h
            unfold FS.lookup
            rw [getEntry_setEntry_self]
            rfl
      | cons m rest2 =>
        unfold FS.writeFile at h
        simp only at h
        cases hg : getEntry es n with
        | none => rw [hg] at h; cases h
        | some u =>
          rw [hg] at h
          simp only at h
          cases hw : FS.writeFile u (m :: rest2) c with
          | none => rw [hw] at h; cases h
          | some u2 =>
            rw [hw] at h
            simp only at h
            cases h
            unfold FS.lookup
            rw [getEntry_setEntry_self]
            exact ih u u2 c hw

/-- Once the skill name is fixed, pass 1 can only return that name. -/
theorem pass1go_ok_name (ents : List TarEntry) : ∀ m b n,
    pass1go ents (some m) b = .ok n → n = m := by
  induction ents with
  | nil =>
    intro m b n h
    unfold pass1go at h
    cases b with
    | false => cases h
    | true => simp only at h; cases h; rfl
  | cons e rest ih =>
    intro m b n h
    unfold pass1go at h
    simp only at h
    by_cases hd : e.name.any containsDotDot = true
    · rw [if_pos hd] at h; cases h
    · rw [if_neg hd] at h
      exact ih m _ n h

/-- **C10.**  In `ImportSkill`'s extraction pass, (1) the skill directory
name is derived from the first archive entry's first path segment; (2) an
entry with a single path segment is skipped, leaving the filesystem
untouched; (3) the extraction of an entry depends only on its name's tail
— the first segment is stripped and never compared against the derived
name, so an entry whose first segment differs is silently re-rooted; and
(4) a successfully extracted file entry lands at the derived skill
directory followed by its cleaned tail segments. -/
theorem c10_reroot (root : FS) (n s t : String) (tl : List String)
    (d : Bool) (c : List Nat) (e0 : TarEntry) (rest : List TarEntry) :
    (pass1 (e0 :: rest) = .ok n → n = e0.name.headD "")
    ∧ extractEntry root n ⟨[s], d, c⟩ = .ok root
    ∧ extractEntry root n ⟨s :: tl, d, c⟩ = extractEntry root n ⟨t :: tl, d, c⟩
    ∧ (∀ fs2, tl ≠ [] → extractEntry root n ⟨s :: tl, false, c⟩ = .ok fs2 →
        fs2.lookup (n :: cleanSegs tl) = some (.file c)) := by
  refine ⟨?_, ?_, ?_, ?_⟩
  · intro h
    unfold pass1 pass1go at h
    simp only at h
    cases hv : ValidateSkillName (e0.name.headD "") with
    | error m => rw [hv] at h; simp only at h; cases h
    | ok u =>
      rw [hv] at h
      simp only at h
      by_cases hd : e0.name.any containsDotDot = true
      · rw [if_pos hd] at h; cases h
      · rw [if_neg hd] at h
        exact pass1go_ok_name rest _ _ n h
  · rfl
  · rfl
  · intro fs2 htl h
    unfold extractEntry at h
    have hlen : ¬ (s :: tl).length < 2 := by
      cases tl with
      | nil => exact absurd rfl htl
      | cons a l => simp [Nat.succ_lt_succ_iff]
    rw [if_neg hlen] at h
    simp only [List.tail_cons] at h
    by_cases hd : tl.any containsDotDot = true
    · rw [if_pos hd] at h; cases h
    · rw [if_neg hd] at h
      simp only [Bool.false_eq_true, if_false] at h
      cases hm : FS.mkdirAll root (n :: cleanSegs tl).dropLast with
      | none => rw [hm] at h; cases h
      | some r1 =>
        rw [hm] at h
        simp only at h
        cases hw : FS.writeFile r1 (n :: cleanSegs tl) c with
        | none => rw [hw] at h; cases h
        | some r2 =>
          rw [hw] at h
          simp only at h
          cases h
          exact lookup_writeFile _ r1 fs2 c hw

/-- **C10, witness.**  The entry `beta/x` of an archive whose derived
skill name is `n` is re-rooted: extraction into an empty root succeeds and
places the bytes at `n/x`, with the foreign first segment `beta` stripped. -/
theorem c10_reroot_witness :
    (["x"] : List String) ≠ []
    ∧ extractEntry (.dir []) "n" ⟨["beta", "x"], false, [2]⟩
        = .ok (.dir [("n", .dir [("x", .file [2])])])
    ∧ FS.lookup (.dir [("n", .dir [("x", .file [2])])]) ("n" :: cleanSegs ["x"])
        = some (.file [2]) :=
  ⟨by decide, by rfl,
   (c10_reroot (.dir []) "n" "beta" "beta" ["x"] false [2]
      ⟨["beta", "x"], false, [2]⟩ []).2.2.2
     (.dir [("n", .dir [("x", .file [2])])]) (by decide) rfl⟩

/-! ## Round-trip machinery: path updates and tree predicates -/

/-- The child of an entry list under a name, defaulting to an empty
directory — the scrutinee `os.MkdirAll` effectively works on. -/
def childOr (es : List (String × FS)) (n : String) : FS :=
  match getEntry es n with
  | some u => u
  | none => FS.dir []

/-- Functional update of the subtree at a path (creating empty
directories along missing components, mirroring `MkdirAll`'s effect). -/
def FS.setAt (t : FS) (q : List String) (v : FS) : FS :=
  match t, q with
  | _, [] => v
  | .file c, _ :: _ => .file c
  | .dir es, m :: rest => .dir (setEntry es m ((childOr es m).setAt rest v))
termination_by structural q

mutual
/-- No name anywhere in the tree contains the substring `".."` (such
names are rejected by both of `ImportSkill`'s passes). -/
def FS.ddFree : FS → Bool
  | .file _ => true
  | .dir es => ddFreeList es

def ddFreeList : List (String × FS) → Bool
  | [] => true
  | e :: rest => !containsDotDot e.1 && e.2.ddFree && ddFreeList rest
end

/-- Left fold of `setEntry` over a list of new entries. -/
def foldSet : List (String × FS) → List (String × FS) → List (String × FS)
  | ds, [] => ds
  | ds, e :: rest => foldSet (setEntry ds e.1 e.2) rest

theorem lookup_nil (t : FS) : FS.lookup t [] = some t := by
  cases t <;> rfl

theorem lookup_cons (es : List (String × FS)) (m : String) (p : List String) :
    FS.lookup (.dir es) (m :: p)
      = match getEntry es m with
        | some u => FS.lookup u p
        | none => none := rfl

theorem setAt_nil (t v : FS) : t.setAt [] v = v := by
  cases t <;> rfl

theorem setAt_cons (es : List (String × FS)) (m : String) (rest : List String)
    (v : FS) : FS.setAt (.dir es) (m :: rest) v
      = .dir (setEntry es m ((childOr es m).setAt rest v)) := rfl

theorem lookup_one (es : List (String × FS)) (n : String) :
    FS.lookup (.dir es) [n] = getEntry es n := by
  rw [lookup_cons]
  cases getEntry es n with
  | none => rfl
  | some t => simp only; exact lookup_nil t

theorem lookup_append (p : List String) : ∀ (t : FS) (r : List String),
    FS.lookup t (p ++ r) = (FS.lookup t p).bind (fun u => FS.lookup u r) := by
  induction p with
  | nil => intro t r; rw [lookup_nil]; rfl
  | cons m rest ih =>
    intro t r
    cases t with
    | file c => rfl
    | dir es =>
      rw [show (m :: rest) ++ r = m :: (rest ++ r) from rfl, lookup_cons,
          lookup_cons]
      cases hg : getEntry es m with
      | none => rfl
      | some u => simp only; exact ih u r

theorem wfb_lookup (q : List String) : ∀ (t u : FS),
    FS.wfb t = true → FS.lookup t q = some u → FS.wfb u = true := by
  induction q with
  | nil => intro t u hw h; rw [lookup_nil] at h; cases h; exact hw
  | cons m rest ih =>
    intro t u hw h
    cases t with
    | file c => cases h
    | dir es =>
      rw [lookup_cons] at h
      cases hg : getEntry es m with
      | none => rw [hg] at h; cases h
      | some w =>
        rw [hg] at h
        simp only at h
        exact ih w u (wfb_getEntry es m w hw hg) h

theorem setEntry_setEntry (es : List (String × FS)) (n : String) (a b : FS) :
    setEntry (setEntry es n a) n b = setEntry es n b := by
  induction es with
  | nil => simp [setEntry, strLtb_self]
  | cons e rest ih =>
    by_cases h1 : strLtb n e.1 = true
    · simp only [setEntry, if_pos h1]
      simp [setEntry, strLtb_self]
    · by_cases h2 : e.1 = n
      · simp only [setEntry, if_neg h1, if_pos h2]
        simp [setEntry, strLtb_self]
      · simp only [setEntry, if_neg h1, if_neg h2]
        rw [ih]

theorem childOr_setEntry_self (es : List (String × FS)) (m : String) (v : FS) :
    childOr (setEntry es m v) m = v := by
  unfold childOr
  rw [getEntry_setEntry_self]

theorem lookup_setAt (q : List String) : ∀ (t v : FS),
    (FS.lookup t q).isSome = true → FS.lookup (t.setAt q v) q = some v := by
  induction q with
  | nil => intro t v _; rw [setAt_nil, lookup_nil]
  | cons m rest ih =>
    intro t v h
    cases t with
    | file c => cases h
    | dir es =>
      rw [lookup_cons] at h
      cases hg : getEntry es m with
      | none => rw [hg] at h; cases h
      | some u =>
        rw [hg] at h
        simp only at h
        rw [setAt_cons, lookup_cons, getEntry_setEntry_self]
        simp only
        have hc : childOr es m = u := by unfold childOr; rw [hg]
        rw [hc]
        exact ih u v h

theorem setAt_setAt (q : List String) : ∀ (t v w : FS),
    (t.setAt q v).setAt q w = t.setAt q w := by
  induction q with
  | nil => intro t v w; rw [setAt_nil, setAt_nil]
  | cons m rest ih =>
    intro t v w
    cases t with
    | file c => rfl
    | dir es =>
      rw [setAt_cons, setAt_cons, setAt_cons, childOr_setEntry_self,
          setEntry_setEntry, ih]

theorem setAt_append_setEntry (q : List String) : ∀ (t : FS)
    (es0 : List (String × FS)) (nm : String) (v : FS),
    (t.setAt q (.dir es0)).setAt (q ++ [nm]) v
      = t.setAt q (.dir (setEntry es0 nm v)) := by
  induction q with
  | nil =>
    intro t es0 nm v
    rw [setAt_nil, setAt_nil, List.nil_append, setAt_cons, setAt_nil]
  | cons m rest ih =>
    intro t es0 nm v
    cases t with
    | file c => rfl
    | dir es =>
      rw [setAt_cons, show (m :: rest) ++ [nm] = m :: (rest ++ [nm]) from rfl,
          setAt_cons, setAt_cons, childOr_setEntry_self, setEntry_setEntry, ih]

theorem setAt_self (q : List String) : ∀ (t u : FS),
    FS.wfb t = true → FS.lookup t q = some u → t.setAt q u = t := by
  induction q with
  | nil => intro t u _ h; rw [lookup_nil] at h; cases h; rw [setAt_nil]
  | cons m rest ih =>
    intro t u hw h
    cases t with
    | file c => rfl
    | dir es =>
      rw [lookup_cons] at h
      cases hg : getEntry es m with
      | none => rw [hg] at h; cases h
      | some w =>
        rw [hg] at h
        simp only at h
        rw [setAt_cons]
        have hc : childOr es m = w := by unfold childOr; rw [hg]
        rw [hc, ih w u (wfb_getEntry es m w hw hg) h]
        have hks : keysSorted es = true := by
          unfold FS.wfb at hw
          exact (Bool.and_eq_true _ _ |>.mp hw).1
        rw [setEntry_self_sorted es m w hks hg]

theorem wfb_setAt (q : List String) : ∀ (t v : FS),
    FS.wfb t = true → FS.wfb v = true → FS.wfb (t.setAt q v) = true := by
  induction q with
  | nil => intro t v _ hv; rw [setAt_nil]; exact hv
  | cons m rest ih =>
    intro t v hw hv
    cases t with
    | file c => exact hw
    | dir es =>
      rw [setAt_cons]
      have hks : keysSorted es = true := by
        unfold FS.wfb at hw
        exact (Bool.and_eq_true _ _ |>.mp hw).1
      have hwl : wfbList es = true := by
        unfold FS.wfb at hw
        exact (Bool.and_eq_true _ _ |>.mp hw).2
      have hcw : FS.wfb (childOr es m) = true := by
        unfold childOr
        cases hg : getEntry es m with
        | none => rfl
        | some u => exact wfb_getEntry es m u hw hg
      unfold FS.wfb
      rw [Bool.and_eq_true]
      exact ⟨keysSorted_setEntry es m _ hks,
             wfbList_setEntry es m _ hwl (ih _ v hcw hv)⟩

/-! ## Operation lemmas: `MkdirAll` and file creation along existing paths -/

theorem mkdirAll_cons (es : List (String × FS)) (n : String) (p : List String) :
    FS.mkdirAll (.dir es) (n :: p)
      = match (childOr es n).mkdirAll p with
        | some sub2 => some (.dir (setEntry es n sub2))
        | none => none := rfl

theorem writeFile_one (es : List (String × FS)) (n : String) (c : List Nat) :
    FS.writeFile (.dir es) [n] c
      = match getEntry es n with
        | some (.dir ds) => none
        | _ => some (.dir (setEntry es n (.file c))) := rfl

theorem writeFile_cons_ne (es : List (String × FS)) (n : String)
    (p : List String) (c : List Nat) (hp : p ≠ []) :
    FS.writeFile (.dir es) (n :: p) c
      = match getEntry es n with
        | some u =>
          match u.writeFile p c with
          | some u2 => some (.dir (setEntry es n u2))
          | none => none
        | none => none := by
  cases p with
  | nil => exact absurd rfl hp
  | cons a l => rfl

theorem mkdirAll_self (q : List String) : ∀ (cur : FS) (ds : List (String × FS)),
    FS.wfb cur = true → FS.lookup cur q = some (.dir ds) →
    FS.mkdirAll cur q = some cur := by
  induction q with
  | nil =>
    intro cur ds _ h
    rw [lookup_nil] at h
    cases h
    rfl
  | cons m rest ih =>
    intro cur ds hw h
    cases cur with
    | file c => rw [show FS.lookup (.file c) (m :: rest) = none from rfl] at h; cases h
    | dir es =>
      rw [lookup_cons] at h
      cases hg : getEntry es m with
      | none => rw [hg] at h; cases h
      | some w =>
        rw [hg] at h
        simp only at h
        rw [mkdirAll_cons]
        have hc : childOr es m = w := by unfold childOr; rw [hg]
        rw [hc, ih w ds (wfb_getEntry es m w hw hg) h]
        simp only
        have hks : keysSorted es = true := by
          unfold FS.wfb at hw
          exact (Bool.and_eq_true _ _ |>.mp hw).1
        rw [setEntry_self_sorted es m w hks hg]

theorem mkdirAll_fresh (q : List String) : ∀ (cur : FS) (ds : List (String × FS))
    (nm : String), FS.lookup cur q = some (.dir ds) → getEntry ds nm = none →
    FS.mkdirAll cur (q ++ [nm])
      = some (cur.setAt q (.dir (setEntry ds nm (.dir [])))) := by
  induction q with
  | nil =>
    intro cur ds nm h hnm
    rw [lookup_nil] at h
    cases h
    rw [List.nil_append, mkdirAll_cons]
    have hc : childOr ds nm = .dir [] := by unfold childOr; rw [hnm]
    rw [hc]
    rw [setAt_nil]
    rfl
  | cons m rest ih =>
    intro cur ds nm h hnm
    cases cur with
    | file c => rw [show FS.lookup (.file c) (m :: rest) = none from rfl] at h; cases h
    | dir es =>
      rw [lookup_cons] at h
      cases hg : getEntry es m with
      | none => rw [hg] at h; cases h
      | some w =>
        rw [hg] at h
        simp only at h
        rw [show (m :: rest) ++ [nm] = m :: (rest ++ [nm]) from rfl, mkdirAll_cons]
        have hc : childOr es m = w := by unfold childOr; rw [hg]
        rw [hc, ih w ds nm h hnm]
        simp only
        rw [setAt_cons, hc]

theorem writeFile_fresh (q : List String) : ∀ (cur : FS) (ds : List (String × FS))
    (nm : String) (c : List Nat),
    FS.lookup cur q = some (.dir ds) → getEntry ds nm = none →
    FS.writeFile cur (q ++ [nm]) c
      = some (cur.setAt q (.dir (setEntry ds nm (.file c)))) := by
  induction q with
  | nil =>
    intro cur ds nm c h hnm
    rw [lookup_nil] at h
    cases h
    rw [List.nil_append, writeFile_one, hnm, setAt_nil]
  | cons m rest ih =>
    intro cur ds nm c h hnm
    cases cur with
    | file b => rw [show FS.lookup (.file b) (m :: rest) = none from rfl] at h; cases h
    | dir es =>
      rw [lookup_cons] at h
      cases hg : getEntry es m with
      | none => rw [hg] at h; cases h
      | some w =>
        rw [hg] at h
        simp only at h
        rw [show (m :: rest) ++ [nm] = m :: (rest ++ [nm]) from rfl,
            writeFile_cons_ne es m (rest ++ [nm]) c
              (by simp), hg]
        simp only
        rw [ih w ds nm c h hnm]
        simp only
        rw [setAt_cons]
        have hc : childOr es m = w := by unfold childOr; rw [hg]
        rw [hc]

/-! ## Per-entry extraction in success form -/

theorem cleanSegs_all (p : List String) (h : p.all cleanName = true) :
    cleanSegs p = p := by
  unfold cleanSegs
  rw [List.filter_eq_self]
  intro a ha
  have hc := List.all_eq_true.mp h a ha
  unfold cleanName at hc
  rw [Bool.and_eq_true, Bool.and_eq_true, Bool.and_eq_true] at hc
  rw [Bool.and_eq_true]
  exact ⟨hc.1.1.1, hc.1.2⟩

theorem extractEntry_dir_ok (R0 : List (String × FS)) (n : String)
    (p : List String) (c : List Nat) (cur2 : FS) (hp : p ≠ [])
    (hdd : p.any containsDotDot = false) (hcl : cleanSegs p = p)
    (hm : (childOr R0 n).mkdirAll p = some cur2) :
    extractEntry (.dir R0) n ⟨n :: p, true, c⟩
      = .ok (.dir (setEntry R0 n cur2)) := by
  have hlen : ¬ ((⟨n :: p, true, c⟩ : TarEntry).name.length < 2) := by
    cases p with
    | nil => exact absurd rfl hp
    | cons a l => simp [Nat.succ_lt_succ_iff]
  unfold extractEntry
  rw [if_neg hlen]
  rw [show (⟨n :: p, true, c⟩ : TarEntry).name.tail = p from rfl,
      if_neg (by rw [hdd]; exact Bool.false_ne_true)]
  simp only [hcl]
  rw [if_pos trivial, mkdirAll_cons, hm]

theorem extractEntry_file_ok (R0 : List (String × FS)) (n : String)
    (p : List String) (c : List Nat) (cur1 cur2 : FS) (hp : p ≠ [])
    (hdd : p.any containsDotDot = false) (hcl : cleanSegs p = p)
    (hm : (childOr R0 n).mkdirAll p.dropLast = some cur1)
    (hw : cur1.writeFile p c = some cur2) :
    extractEntry (.dir R0) n ⟨n :: p, false, c⟩
      = .ok (.dir (setEntry R0 n cur2)) := by
  have hlen : ¬ ((⟨n :: p, false, c⟩ : TarEntry).name.length < 2) := by
    cases p with
    | nil => exact absurd rfl hp
    | cons a l => simp [Nat.succ_lt_succ_iff]
  have hdl : (n :: p).dropLast = n :: p.dropLast := by
    cases p with
    | nil => exact absurd rfl hp
    | cons a l => rfl
  unfold extractEntry
  rw [if_neg hlen]
  rw [show (⟨n :: p, false, c⟩ : TarEntry).name.tail = p from rfl,
      if_neg (by rw [hdd]; exact Bool.false_ne_true)]
  simp only [hcl]
  rw [if_neg (fun h => Bool.false_ne_true h)]
  rw [hdl, mkdirAll_cons, hm]
  simp only
  rw [writeFile_cons_ne _ n p c hp, getEntry_setEntry_self]
  simp only
  rw [hw]
  simp only
  rw [setEntry_setEntry]

theorem extractList_cons (n : String) (e : TarEntry) (ents : List TarEntry)
    (fs : FS) : extractList n (e :: ents) fs
      = match extractEntry fs n e with
        | .ok fs2 => extractList n ents fs2
        | .error msg => (some msg, fs) := rfl

theorem extractList_append (n : String) (a : List TarEntry) :
    ∀ (b : List TarEntry) (fs : FS),
    extractList n (a ++ b) fs
      = match extractList n a fs with
        | (none, f2) => extractList n b f2
        | (some m, f2) => (some m, f2) := by
  induction a with
  | nil => intro b fs; rfl
  | cons e rest ih =>
    intro b fs
    rw [show (e :: rest) ++ b = e :: (rest ++ b) from rfl, extractList_cons,
        extractList_cons]
    cases he : extractEntry fs n e with
    | ok fs2 => simp only; exact ih b fs2
    | error msg => simp only

theorem keysSorted_append_head (ds : List (String × FS)) :
    ∀ (e : String × FS) (rest : List (String × FS)),
    keysSorted (ds ++ e :: rest) = true → ∀ a ∈ ds, a.1 < e.1 := by
  induction ds with
  | nil => intro e rest h a ha; cases ha
  | cons d ds2 ih =>
    intro e rest h a ha
    rw [List.cons_append] at h
    rcases List.mem_cons.mp ha with h1 | h1
    · rw [h1]
      exact keysSorted_head_lt d (ds2 ++ e :: rest) h e (by simp)
    · exact ih e rest (keysSorted_tail d _ h) a h1

theorem foldSet_sorted (es : List (String × FS)) :
    ∀ ds, keysSorted (ds ++ es) = true → foldSet ds es = ds ++ es := by
  induction es with
  | nil => intro ds h; rw [List.append_nil]; rfl
  | cons e rest ih =>
    intro ds h
    rcases e with ⟨nm, t⟩
    show foldSet (setEntry ds nm t) rest = _
    rw [setEntry_append_gt ds nm t (keysSorted_append_head ds (nm, t) rest h),
        ih (ds ++ [(nm, t)]) (by rw [List.append_assoc]; exact h),
        List.append_assoc]
    rfl

/-! ## Reconstruction: extracting an exported subtree rebuilds it -/

/-- A tree name as it appears in archive paths: legal on disk and free of
the `".."` substring. -/
def segOk (s : String) : Bool := cleanName s && ! containsDotDot s

theorem segOk_spec (s : String) (h : segOk s = true) :
    cleanName s = true ∧ containsDotDot s = false := by
  unfold segOk at h
  rw [Bool.and_eq_true, Bool.not_eq_true'] at h
  exact h

theorem all_segOk_clean (p : List String) (h : p.all segOk = true) :
    p.all cleanName = true := by
  rw [List.all_eq_true] at h ⊢
  intro a ha
  exact (segOk_spec a (h a ha)).1

theorem all_segOk_any_dd (p : List String) (h : p.all segOk = true) :
    p.any containsDotDot = false := by
  rw [List.any_eq_false]
  intro a ha
  rw [(segOk_spec a (List.all_eq_true.mp h a ha)).2]
  exact Bool.false_ne_true

theorem all_segOk_concat (q : List String) (nm : String)
    (hq : q.all segOk = true) (hcn : cleanName nm = true)
    (hdn : containsDotDot nm = false) : (q ++ [nm]).all segOk = true := by
  rw [List.all_append, Bool.and_eq_true]
  refine ⟨hq, ?_⟩
  show (segOk nm && true) = true
  rw [Bool.and_true]
  unfold segOk
  rw [hcn, hdn]
  rfl

theorem tarOfFS_file (pfx : List String) (nm : String) (c : List Nat) :
    tarOfFS pfx nm (.file c) = [⟨pfx ++ [nm], false, c⟩] := by
  simp [tarOfFS]

theorem tarOfFS_dir (pfx : List String) (nm : String) (es : List (String × FS)) :
    tarOfFS pfx nm (.dir es)
      = ⟨pfx ++ [nm], true, []⟩ :: tarList (pfx ++ [nm]) es := by
  simp [tarOfFS]

theorem tarList_nil (pfx : List String) : tarList pfx [] = [] := by
  simp [tarList]

theorem tarList_cons (pfx : List String) (nm : String) (t : FS)
    (rest : List (String × FS)) :
    tarList pfx ((nm, t) :: rest) = tarOfFS pfx nm t ++ tarList pfx rest := by
  simp [tarList]

mutual
/-- Extracting the walk entries of one exported child (`nm`, subtree `t`)
grafts `t` under `nm` at the current position `q` inside the skill
directory `n`, succeeding throughout. -/
theorem extract_tarOfFS : ∀ (t : FS) (n : String) (q : List String) (nm : String)
    (R0 : List (String × FS)) (cur : FS) (ds : List (String × FS)),
    keysSorted R0 = true →
    childOr R0 n = cur →
    FS.wfb cur = true →
    FS.lookup cur q = some (.dir ds) →
    getEntry ds nm = none →
    FS.wfb t = true → FS.cleanb t = true → FS.ddFree t = true →
    cleanName nm = true → containsDotDot nm = false →
    q.all segOk = true →
    extractList n (tarOfFS (n :: q) nm t) (.dir R0)
      = (none, .dir (setEntry R0 n (cur.setAt q (.dir (setEntry ds nm t)))))
  | .file c, n, q, nm, R0, cur, ds => by
    intro hs hc hwcur hlook hnone _ _ _ hcn hdn hq
    have hcat : (n :: q) ++ [nm] = n :: (q ++ [nm]) := rfl
    rw [show tarOfFS (n :: q) nm (.file c) = [⟨n :: (q ++ [nm]), false, c⟩] by
          rw [tarOfFS_file, hcat]]
    rw [extractList_cons,
        extractEntry_file_ok R0 n (q ++ [nm]) c cur
          (cur.setAt q (.dir (setEntry ds nm (.file c))))
          (by simp)
          (all_segOk_any_dd _ (all_segOk_concat q nm hq hcn hdn))
          (cleanSegs_all _ (all_segOk_clean _ (all_segOk_concat q nm hq hcn hdn)))
          (by rw [hc, show (q ++ [nm]).dropLast = q by simp]
              exact mkdirAll_self q cur ds hwcur hlook)
          (writeFile_fresh q cur ds nm c hlook hnone)]
    rfl
  | .dir tes, n, q, nm, R0, cur, ds => by
    intro hs hc hwcur hlook hnone hwt hct hdt hcn hdn hq
    have hcat : (n :: q) ++ [nm] = n :: (q ++ [nm]) := rfl
    have hds : FS.wfb (.dir ds) = true := wfb_lookup q cur (.dir ds) hwcur hlook
    have hdss : keysSorted ds = true := by
      unfold FS.wfb at hds
      exact (Bool.and_eq_true _ _ |>.mp hds).1
    have hdsl : wfbList ds = true := by
      unfold FS.wfb at hds
      exact (Bool.and_eq_true _ _ |>.mp hds).2
    have hwmid : FS.wfb (.dir (setEntry ds nm (.dir []))) = true := by
      unfold FS.wfb
      rw [Bool.and_eq_true]
      exact ⟨keysSorted_setEntry ds nm _ hdss, wfbList_setEntry ds nm _ hdsl rfl⟩
    have hcur2 : FS.wfb (cur.setAt q (.dir (setEntry ds nm (.dir [])))) = true :=
      wfb_setAt q cur _ hwcur hwmid
    have hlook2 : (cur.setAt q (.dir (setEntry ds nm (.dir [])))).lookup (q ++ [nm])
        = some (.dir []) := by
      rw [lookup_append, lookup_setAt q cur _ (by rw [hlook]; rfl)]
      show FS.lookup (.dir (setEntry ds nm (.dir []))) [nm] = some (.dir [])
      rw [lookup_one, getEntry_setEntry_self]
    have hwtes : keysSorted tes = true ∧ wfbList tes = true := by
      unfold FS.wfb at hwt
      exact Bool.and_eq_true _ _ |>.mp hwt
    rw [show tarOfFS (n :: q) nm (.dir tes)
          = ⟨n :: (q ++ [nm]), true, []⟩ :: tarList ((n :: q) ++ [nm]) tes by
          rw [tarOfFS_dir, hcat]]
    rw [extractList_cons,
        extractEntry_dir_ok R0 n (q ++ [nm]) []
          (cur.setAt q (.dir (setEntry ds nm (.dir []))))
          (by simp)
          (all_segOk_any_dd _ (all_segOk_concat q nm hq hcn hdn))
          (cleanSegs_all _ (all_segOk_clean _ (all_segOk_concat q nm hq hcn hdn)))
          (by rw [hc]; exact mkdirAll_fresh q cur ds nm hlook hnone)]
    simp only
    rw [hcat, extract_tarList tes n (q ++ [nm])
          (setEntry R0 n (cur.setAt q (.dir (setEntry ds nm (.dir []))))) _ []
          (keysSorted_setEntry R0 n _ hs)
          (getEntry_setEntry_self R0 n _)
          hcur2 hlook2
          (fun x _ => rfl)
          hwtes.1 hwtes.2
          (by unfold FS.cleanb at hct; exact hct)
          (by unfold FS.ddFree at hdt; exact hdt)
          (all_segOk_concat q nm hq hcn hdn)]
    rw [setEntry_setEntry,
        foldSet_sorted tes [] (by rw [List.nil_append]; exact hwtes.1),
        show ([] : List (String × FS)) ++ tes = tes from rfl,
        setAt_append_setEntry q cur (setEntry ds nm (.dir [])) nm (.dir tes),
        setEntry_setEntry]

/-- Extracting the concatenated walk entries of a list of exported
children grafts them, in order, at the current position `q` inside the
skill directory `n`. -/
theorem extract_tarList : ∀ (es : List (String × FS)) (n : String)
    (q : List String) (R0 : List (String × FS)) (cur : FS)
    (ds : List (String × FS)),
    keysSorted R0 = true →
    getEntry R0 n = some cur →
    FS.wfb cur = true →
    FS.lookup cur q = some (.dir ds) →
    (∀ x ∈ es, getEntry ds x.1 = none) →
    keysSorted es = true → wfbList es = true → cleanbList es = true →
    ddFreeList es = true →
    q.all segOk = true →
    extractList n (tarList (n :: q) es) (.dir R0)
      = (none, .dir (setEntry R0 n (cur.setAt q (.dir (foldSet ds es)))))
  | [], n, q, R0, cur, ds => by
    intro hs hget hwcur hlook _ _ _ _ _ _
    rw [tarList_nil]
    show (none, FS.dir R0) = _
    rw [show foldSet ds [] = ds from rfl,
        setAt_self q cur (.dir ds) hwcur hlook,
        setEntry_self_sorted R0 n cur hs hget]
  | (nm, t) :: rest, n, q, R0, cur, ds => by
    intro hs hget hwcur hlook habs hsort hwl hcl hdl hq
    have hc : childOr R0 n = cur := by unfold childOr; rw [hget]
    have hwt : FS.wfb t = true := by
      unfold wfbList at hwl
      exact (Bool.and_eq_true _ _ |>.mp hwl).1
    have hwrest : wfbList rest = true := by
      unfold wfbList at hwl
      exact (Bool.and_eq_true _ _ |>.mp hwl).2
    have hcnm : cleanName nm = true := by
      unfold cleanbList at hcl
      exact ((Bool.and_eq_true _ _ |>.mp
        (Bool.and_eq_true _ _ |>.mp hcl).1).1 : cleanName (nm, t).1 = true)
    have hct : FS.cleanb t = true := by
      unfold cleanbList at hcl
      exact (Bool.and_eq_true _ _ |>.mp (Bool.and_eq_true _ _ |>.mp hcl).1).2
    have hcrest : cleanbList rest = true := by
      unfold cleanbList at hcl
      exact (Bool.and_eq_true _ _ |>.mp hcl).2
    have hdnm : containsDotDot nm = false := by
      unfold ddFreeList at hdl
      have := (Bool.and_eq_true _ _ |>.mp (Bool.and_eq_true _ _ |>.mp hdl).1).1
      rwa [Bool.not_eq_true'] at this
    have hdt : FS.ddFree t = true := by
      unfold ddFreeList at hdl
      exact (Bool.and_eq_true _ _ |>.mp (Bool.and_eq_true _ _ |>.mp hdl).1).2
    have hdrest : ddFreeList rest = true := by
      unfold ddFreeList at hdl
      exact (Bool.and_eq_true _ _ |>.mp hdl).2
    have hds : FS.wfb (.dir ds) = true := wfb_lookup q cur (.dir ds) hwcur hlook
    have hdss : keysSorted ds = true := by
      unfold FS.wfb at hds
      exact (Bool.and_eq_true _ _ |>.mp hds).1
    have hdsl : wfbList ds = true := by
      unfold FS.wfb at hds
      exact (Bool.and_eq_true _ _ |>.mp hds).2
    rw [tarList_cons,
        extractList_append,
        extract_tarOfFS t n q nm R0 cur ds hs hc hwcur hlook
          (habs (nm, t) (List.mem_cons_self _ _)) hwt hct hdt hcnm hdnm hq]
    simp only
    have hwmid : FS.wfb (.dir (setEntry ds nm t)) = true := by
      unfold FS.wfb
      rw [Bool.and_eq_true]
      exact ⟨keysSorted_setEntry ds nm _ hdss, wfbList_setEntry ds nm _ hdsl hwt⟩
    rw [extract_tarList rest n q (setEntry R0 n (cur.setAt q (.dir (setEntry ds nm t))))
          (cur.setAt q (.dir (setEntry ds nm t))) (setEntry ds nm t)
          (keysSorted_setEntry R0 n _ hs)
          (getEntry_setEntry_self R0 n _)
          (wfb_setAt q cur _ hwcur hwmid)
          (lookup_setAt q cur _ (by rw [hlook]; rfl))
          (fun x hx => by
            rw [getEntry_setEntry_ne ds nm x.1 t
              (fun he => absurd (he ▸ keysSorted_head_lt (nm, t) rest hsort x hx)
                (lt_irrefl _))]
            exact habs x (List.mem_cons_of_mem _ hx))
          (keysSorted_tail (nm, t) rest hsort) hwrest hcrest hdrest hq]
    rw [setEntry_setEntry, setAt_setAt]
    rfl
end

/-! ## Pass 1 on an exported archive -/

theorem getEntry_mem_pair (es : List (String × FS)) (n : String) (u : FS)
    (h : getEntry es n = some u) : (n, u) ∈ es := by
  induction es with
  | nil => cases h
  | cons e rest ih =>
    unfold getEntry at h
    by_cases he : e.1 = n
    · rw [if_pos he] at h
      cases h
      rw [show (n, e.2) = e from by rw [Prod.ext_iff]; exact ⟨he.symm, rfl⟩]
      exact List.mem_cons_self e rest
    · rw [if_neg he] at h
      exact List.mem_cons_of_mem e (ih h)

theorem tar_mem_list : ∀ (es : List (String × FS)) (pfx : List String)
    (nm : String) (t : FS) (e : TarEntry),
    (nm, t) ∈ es → e ∈ tarOfFS pfx nm t → e ∈ tarList pfx es := by
  intro es
  induction es with
  | nil => intro pfx nm t e hm _; cases hm
  | cons b rest ih =>
    intro pfx nm t e hm he
    rcases b with ⟨bn, bt⟩
    rw [tarList_cons]
    rcases List.mem_cons.mp hm with h1 | h1
    · rcases Prod.mk.injEq .. ▸ h1 with ⟨h2, h3⟩
      subst h2; subst h3
      exact List.mem_append_left _ he
    · exact List.mem_append_right _ (ih pfx nm t e h1 he)

mutual
/-- Shape of the names `tarOfFS` emits: the prefix followed by a non-empty
chain of tree names, each legal and free of `".."`. -/
theorem tar_names_ofFS : ∀ (t : FS) (pfx : List String) (nm : String) (e : TarEntry),
    e ∈ tarOfFS pfx nm t → FS.cleanb t = true → FS.ddFree t = true →
    cleanName nm = true → containsDotDot nm = false →
    ∃ p, e.name = pfx ++ nm :: p ∧ (nm :: p).all segOk = true
  | .file c, pfx, nm, e => by
    intro he hct hdt hcn hdn
    rw [tarOfFS_file] at he
    rcases List.mem_singleton.mp he with rfl
    refine ⟨[], by simp, ?_⟩
    show (segOk nm && true) = true
    rw [Bool.and_true]
    unfold segOk
    rw [hcn, hdn]
    rfl
  | .dir tes, pfx, nm, e => by
    intro he hct hdt hcn hdn
    rw [tarOfFS_dir] at he
    rcases List.mem_cons.mp he with rfl | h1
    · refine ⟨[], by simp, ?_⟩
      show (segOk nm && true) = true
      rw [Bool.and_true]
      unfold segOk
      rw [hcn, hdn]
      rfl
    · rcases tar_names_list tes (pfx ++ [nm]) e h1
        (by unfold FS.cleanb at hct; exact hct)
        (by unfold FS.ddFree at hdt; exact hdt) with ⟨nm2, p2, hname, hsegs⟩
      refine ⟨nm2 :: p2, by rw [hname, List.append_assoc]; rfl, ?_⟩
      show (segOk nm && (nm2 :: p2).all segOk) = true
      rw [hsegs, Bool.and_true]
      unfold segOk
      rw [hcn, hdn]
      rfl

theorem tar_names_list : ∀ (es : List (String × FS)) (pfx : List String)
    (e : TarEntry), e ∈ tarList pfx es → cleanbList es = true →
    ddFreeList es = true →
    ∃ nm p, e.name = pfx ++ nm :: p ∧ (nm :: p).all segOk = true
  | [], pfx, e => by
    intro he _ _
    rw [tarList_nil] at he
    cases he
  | (nm, t) :: rest, pfx, e => by
    intro he hcl hdl
    rw [tarList_cons] at he
    have hcnm : cleanName nm = true := by
      unfold cleanbList at hcl
      exact ((Bool.and_eq_true _ _ |>.mp
        (Bool.and_eq_true _ _ |>.mp hcl).1).1 : cleanName (nm, t).1 = true)
    have hct : FS.cleanb t = true := by
      unfold cleanbList at hcl
      exact (Bool.and_eq_true _ _ |>.mp (Bool.and_eq_true _ _ |>.mp hcl).1).2
    have hdnm : containsDotDot nm = false := by
      unfold ddFreeList at hdl
      have := (Bool.and_eq_true _ _ |>.mp (Bool.and_eq_true _ _ |>.mp hdl).1).1
      rwa [Bool.not_eq_true'] at this
    have hdt : FS.ddFree t = true := by
      unfold ddFreeList at hdl
      exact (Bool.and_eq_true _ _ |>.mp (Bool.and_eq_true _ _ |>.mp hdl).1).2
    rcases List.mem_append.mp he with h1 | h1
    · rcases tar_names_ofFS t pfx nm e h1 hct hdt hcnm hdnm with ⟨p, hn, hs⟩
      exact ⟨nm, p, hn, hs⟩
    · exact tar_names_list rest pfx e h1
        (by unfold cleanbList at hcl; exact (Bool.and_eq_true _ _ |>.mp hcl).2)
        (by unfold ddFreeList at hdl; exact (Bool.and_eq_true _ _ |>.mp hdl).2)
end

theorem pass1go_ok (ents : List TarEntry) : ∀ (m : String) (b : Bool),
    (∀ e ∈ ents, e.name.any containsDotDot = false) →
    (b || ents.any (fun e => hasSfx "SKILL.md" (e.name.getLastD ""))) = true →
    pass1go ents (some m) b = .ok m := by
  induction ents with
  | nil =>
    intro m b _ hmd
    rw [List.any_nil, Bool.or_false] at hmd
    unfold pass1go
    simp only
    rw [hmd, if_pos rfl]
  | cons e rest ih =>
    intro m b hdd hmd
    unfold pass1go
    simp only
    rw [if_neg (by rw [hdd e (List.mem_cons_self _ _)]; exact Bool.false_ne_true)]
    refine ih m _ (fun x hx => hdd x (List.mem_cons_of_mem _ hx)) ?_
    rw [List.any_cons] at hmd
    rw [Bool.or_assoc]
    exact hmd

theorem pass1go_head (n : String) (e1 : TarEntry) (tail : List TarEntry)
    (hhead : e1.name.headD "" = n)
    (hv : ValidateSkillName n = .ok ())
    (hddAll : ∀ e ∈ e1 :: tail, e.name.any containsDotDot = false)
    (hmd : (e1 :: tail).any
      (fun e => hasSfx "SKILL.md" (e.name.getLastD "")) = true) :
    pass1 (e1 :: tail) = .ok n := by
  unfold pass1 pass1go
  simp only
  rw [hhead, hv]
  simp only
  rw [if_neg (by rw [hddAll e1 (List.mem_cons_self _ _)]; exact Bool.false_ne_true)]
  refine pass1go_ok tail n _ (fun e he => hddAll e (List.mem_cons_of_mem _ he)) ?_
  rw [Bool.false_or]
  rw [List.any_cons] at hmd
  exact hmd

theorem pass1_tarList (n : String) (es : List (String × FS)) (mc : List Nat)
    (hv : ValidateSkillName n = .ok ())
    (hdn : containsDotDot n = false)
    (hcl : cleanbList es = true) (hdl : ddFreeList es = true)
    (hmd : getEntry es "SKILL.md" = some (.file mc)) :
    pass1 (tarList [n] es) = .ok n := by
  have hmem : (("SKILL.md" : String), FS.file mc) ∈ es := getEntry_mem_pair es _ _ hmd
  have hMDmem : (⟨[n, "SKILL.md"], false, mc⟩ : TarEntry) ∈ tarList [n] es := by
    apply tar_mem_list es [n] "SKILL.md" (.file mc) _ hmem
    rw [tarOfFS_file]
    exact List.mem_singleton.mpr rfl
  have hddAll : ∀ e ∈ tarList [n] es, e.name.any containsDotDot = false := by
    intro e he
    rcases tar_names_list es [n] e he hcl hdl with ⟨nm, p, hnamee, hsegs⟩
    rw [hnamee, show ([n] ++ nm :: p) = n :: nm :: p from rfl, List.any_cons,
        hdn, Bool.false_or]
    exact all_segOk_any_dd _ hsegs
  have hany : (tarList [n] es).any
      (fun e => hasSfx "SKILL.md" (e.name.getLastD "")) = true := by
    rw [List.any_eq_true]
    refine ⟨_, hMDmem, ?_⟩
    show hasSfx "SKILL.md" ([n, "SKILL.md"].getLastD "") = true
    rw [List.getLastD_cons, List.getLastD_cons]
    decide
  rcases es with _ | ⟨⟨nm1, t1⟩, rest⟩
  · cases hmd
  · cases t1 with
    | file c1 =>
      have hsh : tarList [n] ((nm1, FS.file c1) :: rest)
          = ⟨[n, nm1], false, c1⟩ :: tarList [n] rest := by
        rw [tarList_cons, tarOfFS_file]
        rfl
      rw [hsh] at hddAll hany ⊢
      exact pass1go_head n _ _ rfl hv hddAll hany
    | dir des =>
      have hsh : tarList [n] ((nm1, FS.dir des) :: rest)
          = ⟨[n, nm1], true, []⟩ :: (tarList [n, nm1] des ++ tarList [n] rest) := by
        rw [tarList_cons, tarOfFS_dir]
        rfl
      rw [hsh] at hddAll hany ⊢
      exact pass1go_head n _ _ rfl hv hddAll hany

/-- Pass 2 on a full exported archive, into a root without the skill:
the extraction succeeds and grafts the skill subtree as a fresh top-level
entry. -/
theorem extract_top (n : String) (es R : List (String × FS))
    (hfresh : getEntry R n = none) (hR : keysSorted R = true)
    (hsort : keysSorted es = true) (hwl : wfbList es = true)
    (hcl : cleanbList es = true) (hdl : ddFreeList es = true)
    (hne : es ≠ []) :
    extractList n (tarList [n] es) (.dir R)
      = (none, .dir (setEntry R n (.dir es))) := by
  rcases es with _ | ⟨⟨nm1, t1⟩, rest⟩
  · exact absurd rfl hne
  · have hwt1 : FS.wfb t1 = true := by
      unfold wfbList at hwl
      exact (Bool.and_eq_true _ _ |>.mp hwl).1
    have hwrest : wfbList rest = true := by
      unfold wfbList at hwl
      exact (Bool.and_eq_true _ _ |>.mp hwl).2
    have hcnm : cleanName nm1 = true := by
      unfold cleanbList at hcl
      exact ((Bool.and_eq_true _ _ |>.mp
        (Bool.and_eq_true _ _ |>.mp hcl).1).1 : cleanName (nm1, t1).1 = true)
    have hct1 : FS.cleanb t1 = true := by
      unfold cleanbList at hcl
      exact (Bool.and_eq_true _ _ |>.mp (Bool.and_eq_true _ _ |>.mp hcl).1).2
    have hcrest : cleanbList rest = true := by
      unfold cleanbList at hcl
      exact (Bool.and_eq_true _ _ |>.mp hcl).2
    have hdnm : containsDotDot nm1 = false := by
      unfold ddFreeList at hdl
      have := (Bool.and_eq_true _ _ |>.mp (Bool.and_eq_true _ _ |>.mp hdl).1).1
      rwa [Bool.not_eq_true'] at this
    have hdt1 : FS.ddFree t1 = true := by
      unfold ddFreeList at hdl
      exact (Bool.and_eq_true _ _ |>.mp (Bool.and_eq_true _ _ |>.mp hdl).1).2
    have hdrest : ddFreeList rest = true := by
      unfold ddFreeList at hdl
      exact (Bool.and_eq_true _ _ |>.mp hdl).2
    rw [show ([n] : List String) = n :: [] from rfl, tarList_cons,
        extractList_append,
        extract_tarOfFS t1 n [] nm1 R (.dir []) [] hR
          (by unfold childOr; rw [hfresh]) rfl (lookup_nil _) rfl
          hwt1 hct1 hdt1 hcnm hdnm rfl]
    simp only
    rw [setAt_nil]
    rw [extract_tarList rest n [] (setEntry R n (.dir (setEntry [] nm1 t1)))
          (.dir (setEntry [] nm1 t1)) (setEntry [] nm1 t1)
          (keysSorted_setEntry R n _ hR)
          (getEntry_setEntry_self R n _)
          (by show (keysSorted [(nm1, t1)] && wfbList [(nm1, t1)]) = true
              show (true && (FS.wfb t1 && true)) = true
              rw [hwt1]
              rfl)
          (lookup_nil _)
          (fun x hx => by
            show (if nm1 = x.1 then some t1 else none) = none
            rw [if_neg (fun he =>
              absurd (he ▸ keysSorted_head_lt (nm1, t1) rest hsort x hx)
                (lt_irrefl _))])
          (keysSorted_tail (nm1, t1) rest hsort) hwrest hcrest hdrest rfl]
    rw [setEntry_setEntry, setAt_nil,
        show setEntry ([] : List (String × FS)) nm1 t1 = [(nm1, t1)] from rfl,
        foldSet_sorted rest [(nm1, t1)]
          (by rw [show [(nm1, t1)] ++ rest = (nm1, t1) :: rest from rfl]
              exact hsort),
        show [(nm1, t1)] ++ rest = (nm1, t1) :: rest from rfl]

/-- **C5 (amended).**  For every resolvable skill whose directory name is
a valid skill name and whose tree consists of legal on-disk names free of
the substring `".."`: exporting the skill serializes exactly its directory
subtree under its base name, importing that archive into a destination
root that has no entry of that name succeeds and recreates the identical
subtree — same file set, same bytes — as a fresh top-level directory, and
importing it into a destination that already has an entry of that name
fails with an already-exists error before extracting anything, leaving the
destination unchanged.  (Without the name restrictions the round trip can
fail, see the counterexample.) -/
theorem c5_roundtrip (parse : FMParser) (S R R2 : List (String × FS))
    (rootBase n : String) (es : List (String × FS)) (mc : List Nat)
    (meta : SkillMetadata) (body : String) (u : FS)
    (hS : getEntry S n = some (.dir es))
    (hmd : getEntry es "SKILL.md" = some (.file mc))
    (hparse : parse mc = .ok (meta, body))
    (hname : meta.name = n)
    (hv : ValidateSkillName n = .ok ())
    (hcn : cleanName n = true)
    (hdn : containsDotDot n = false)
    (hsort : keysSorted es = true) (hwl : wfbList es = true)
    (hcl : cleanbList es = true) (hdl : ddFreeList es = true)
    (hR : keysSorted R = true) (hfresh : getEntry R n = none)
    (hex : getEntry R2 n = some u) :
    ExportSkill S rootBase n = .ok (tarList [n] es)
    ∧ ImportSkill parse (tarList [n] es) (.dir R)
        = (.ok n, .dir (setEntry R n (.dir es)))
    ∧ ImportSkill parse (tarList [n] es) (.dir R2)
        = (.error ("skill '" ++ n ++ "' already exists"), .dir R2) := by
  have hslash : slashFree n = true := by
    unfold cleanName at hcn
    exact (Bool.and_eq_true _ _ |>.mp
      (Bool.and_eq_true _ _ |>.mp (Bool.and_eq_true _ _ |>.mp hcn).1).1).2
  have hne : es ≠ [] := by
    intro h
    rw [h] at hmd
    cases hmd
  refine ⟨?_, ?_, ?_⟩
  · -- export
    unfold ExportSkill
    simp only
    rw [splitSlash_single n hslash]
    rw [if_neg (by simp)]
    rw [if_neg (by simp)]
    rw [cleanPath_clean [n]
      (fun x hx => by rcases List.mem_singleton.mp hx with rfl; exact hcn)]
    rw [if_pos (by
      rw [show ([n] ++ ["SKILL.md"] : List String) = n :: ["SKILL.md"] from rfl,
          lookup_cons, hS]
      simp only
      rw [lookup_one, hmd]
      rfl)]
    rw [lookup_one, hS]
    simp only
    rw [List.getLastD_cons]
    rfl
  · -- import into a fresh root
    unfold ImportSkill
    rw [pass1_tarList n es mc hv hdn hcl hdl hmd]
    simp only
    rw [if_neg (by rw [lookup_one, hfresh]; exact Bool.false_ne_true)]
    rw [extract_top n es R hfresh hR hsort hwl hcl hdl hne]
    simp only
    rw [show FS.lookup (.dir (setEntry R n (.dir es))) [n, "SKILL.md"]
          = some (.file mc) from by
        rw [lookup_cons, getEntry_setEntry_self]
        simp only
        rw [lookup_one, hmd]]
    simp only
    rw [hparse]
    simp only
    rw [if_pos hname]
  · -- import into an occupied root
    unfold ImportSkill
    rw [pass1_tarList n es mc hv hdn hcl hdl hmd]
    simp only
    rw [if_pos (by rw [lookup_one, hex]; rfl)]

/-- **C5, counterexample.**  A perfectly resolvable skill whose tree
contains a file named `a..b` exports fine, but importing its own export
fails: pass 1 of `ImportSkill` rejects any entry name containing the
substring `".."`, so the round trip of the original claim does not hold
for every resolvable skill. -/
theorem c5_counterexample :
    (ReadSkill parseW
        [("demo", .dir [("SKILL.md", .file [1]), ("a..b", .file [7])])]
        "skills" "demo").toOption.isSome = true
    ∧ ExportSkill
        [("demo", .dir [("SKILL.md", .file [1]), ("a..b", .file [7])])]
        "skills" "demo"
      = .ok [⟨["demo", "SKILL.md"], false, [1]⟩, ⟨["demo", "a..b"], false, [7]⟩]
    ∧ ImportSkill parseW
        [⟨["demo", "SKILL.md"], false, [1]⟩, ⟨["demo", "a..b"], false, [7]⟩]
        (.dir [])
      = (.error "invalid path in archive", .dir []) :=
  ⟨rfl, rfl, rfl⟩

/-- **C5, witness.**  The local skill `demo` of the concrete root:
export produces its subtree's entries, importing them into an empty root
recreates exactly the original subtree, and importing into a root already
holding an entry `demo` fails with the already-exists error and changes
nothing. -/
theorem c5_roundtrip_witness :
    ExportSkill rootW "skills" "demo"
      = .ok (tarList ["demo"] [("SKILL.md", FS.file [1])])
    ∧ ImportSkill parseW (tarList ["demo"] [("SKILL.md", FS.file [1])]) (.dir [])
        = (.ok "demo", .dir (setEntry [] "demo" (.dir [("SKILL.md", FS.file [1])])))
    ∧ ImportSkill parseW (tarList ["demo"] [("SKILL.md", FS.file [1])])
        (.dir [("demo", FS.file [5])])
        = (.error ("skill '" ++ "demo" ++ "' already exists"),
           .dir [("demo", FS.file [5])]) :=
  c5_roundtrip parseW rootW [] [("demo", FS.file [5])] "skills" "demo"
    [("SKILL.md", FS.file [1])] [1] { name := "demo", description := "d" } "demo body" (FS.file [5])
    rfl rfl rfl rfl rfl rfl rfl rfl rfl rfl rfl rfl rfl rfl
